import Mathlib

set_option autoImplicit false

/-!
# Verification of the `tbayne/priorityqueue` Go package

Shallow embedding of `src/priorityQueue.go` together with the parts of Go's
`container/heap` package that it calls (`heap.Push`, `heap.Pop`, `heap.Fix`,
`heap.Remove`, and their `up`/`down` sift helpers).

Modelling conventions:
* The backing store `QItems []*QItem` is a `List QItem`; Go mutates entries
  through pointers, which the model renders as functional updates at the
  entry's position (observably equivalent for a slice of distinct heap
  allocations, which is what the code maintains).
* `Value interface{}` is an opaque payload never inspected by the queue; it is
  modelled by a `Nat` field so that entries can be distinguished.
* Go `int` fields are `Int` (only comparisons and small counters occur, so
  overflow is irrelevant); positions are `Nat`.
* The mutex and the `available` flag only serialize access; the model is the
  serialized (sequential) semantics, so they have no counterpart.
* Out-of-range slice reads panic in Go; the model uses `List.getD` with a
  dummy default. All reads performed by the public operations are in range
  (this is part of what is proved), so the two semantics agree on every
  reachable call.
* Sift loops (`up`, `down`) and the drain loops are structurally recursive on
  an explicit fuel argument so that every definition computes by kernel
  reduction; each wrapper supplies fuel that is proved (and used) to be
  sufficient.
-/

/-- Mirror of Go `QItem` (`ID`, `ParentID`, `Value`, `Priority`, `index`). -/
structure QItem where
  id : String
  parentID : String
  value : Nat
  priority : Int
  index : Int
deriving DecidableEq

/-- Dummy entry used as the `List.getD` default for reads that Go would
perform through a slice index (all in range on reachable calls). -/
def dQ : QItem := ⟨"", "", 0, 0, 0⟩

/-- Mirror of Go `QItems []*QItem`. -/
abbrev QItems := List QItem

/-- Priority stored at position `i` (Go `qData[i].Priority`). -/
def prio (l : QItems) (i : Nat) : Int := (l.getD i dQ).priority

/-- Go `QItems.Swap`: exchange the entries at `i` and `j` and rewrite both
`index` fields. -/
def swapQ (l : QItems) (i j : Nat) : QItems :=
  let xi := l.getD i dQ
  let xj := l.getD j dQ
  (l.set i { xj with index := (i : Int) }).set j { xi with index := (j : Int) }

/-- `container/heap`'s `up` sift (fuelled; Go `i := (j-1)/2` equals `(j-1)/2`
on `Nat` as well, including the `j = 0` fixed point that ends the loop).
Go's guard is `i == j || !h.Less(j, i)` with `Less i j ↔ prio j < prio i`. -/
def upA : Nat → QItems → Nat → QItems
  | 0, l, _ => l
  | fuel+1, l, j =>
    if j = 0 then l
    else
      let i := (j-1)/2
      if prio l i < prio l j then upA fuel (swapQ l i j) i
      else l

/-- `up` with sufficient fuel. -/
def upHeap (l : QItems) (j : Nat) : QItems := upA (j+1) l j

/-- `container/heap`'s `down` sift on the prefix of length `n`, fuelled.
Returns the final resting index alongside the store (Go returns `i > i0`).
The Go overflow guard `j1 < 0` cannot fire on `Nat`. -/
def downA : Nat → QItems → Nat → Nat → QItems × Nat
  | 0, l, i, _ => (l, i)
  | fuel+1, l, i, n =>
    if 2*i+1 < n then
      let j := if 2*i+2 < n ∧ prio l (2*i+1) < prio l (2*i+2) then 2*i+2 else 2*i+1
      if prio l i < prio l j then downA fuel (swapQ l i j) j n
      else (l, i)
    else (l, i)

/-- `down` with sufficient fuel. -/
def downHeap (l : QItems) (i n : Nat) : QItems × Nat := downA n l i n

/-- Go `heap.Fix` restricted to the prefix of length `n`
(`if !down(h, i, n) { up(h, i) }`); `heap.Fix` itself is `fixB l i l.length`,
and `heap.Remove` uses the bound `l.length - 1`. -/
def fixB (l : QItems) (i n : Nat) : QItems :=
  let r := downHeap l i n
  if i < r.2 then r.1 else upHeap r.1 i

/-- Go `heap.Fix`. -/
def fixQ (l : QItems) (i : Nat) : QItems := fixB l i l.length

/-- Go `QItems.Push` (heap.Interface method): append with `index = len`. -/
def pushItem (l : QItems) (x : QItem) : QItems :=
  l ++ [{ x with index := (l.length : Int) }]

/-- Go `heap.Push`: interface `Push` then `up` from the last position. -/
def heapPush (l : QItems) (x : QItem) : QItems :=
  upHeap (pushItem l x) ((pushItem l x).length - 1)

/-- Go `QItems.Pop` (heap.Interface method): detach the last entry, setting
its `index` to the `-1` sentinel. -/
def popItem (l : QItems) : QItem × QItems :=
  let item := l.getD (l.length - 1) dQ
  ({ item with index := -1 }, l.take (l.length - 1))

/-- Go `heap.Pop`: swap root with last, sift down on the shortened prefix,
then detach the last entry. -/
def heapPop (l : QItems) : QItem × QItems :=
  let n := l.length - 1
  popItem (downHeap (swapQ l 0 n) 0 n).1

/-- Go `heap.Remove i`: swap with last (unless `i` is last), fix within the
shortened prefix, then detach the last entry. -/
def heapRemove (l : QItems) (i : Nat) : QItem × QItems :=
  let n := l.length - 1
  if i = n then popItem l
  else popItem (fixB (swapQ l i n) i n)

/-- Go `QItems.delete`: bounds check then `heap.Remove`. (Go would panic on a
negative `index`; the façade never passes one.) -/
def QItems.delete (l : QItems) (index : Int) : Except String QItems :=
  if index < (l.length : Int) then .ok (heapRemove l index.toNat).2
  else .error "Index out of range"

/-- Mirror of Go `PriorityQueue` (mutex and `available` flag carry no
sequential state). -/
structure PriorityQueue where
  data : QItems
deriving DecidableEq

/-- Go `NewPriorityQueue` (`heap.Init` of an empty store is a no-op). -/
def NewPriorityQueue : PriorityQueue := ⟨[]⟩

/-- Go `(*PriorityQueue).Len`. -/
def PriorityQueue.Len (q : PriorityQueue) : Nat := q.data.length

/-- Go `(*PriorityQueue).Push`. -/
def PriorityQueue.Push (q : PriorityQueue) (i : QItem) : PriorityQueue :=
  ⟨heapPush q.data i⟩

/-- Go `(*PriorityQueue).Pop`: `(*QItem, error)` becomes
`Option QItem × Option String` (Go's `nil` pointer is `none`), plus the
post-state. -/
def PriorityQueue.Pop (q : PriorityQueue) :
    Option QItem × Option String × PriorityQueue :=
  if 0 < q.data.length then
    let r := heapPop q.data
    (some r.1, none, ⟨r.2⟩)
  else (none, some "queue is empty, nothing to Pop", q)

/-- One iteration of the `UpdatePriorityByParentId` scan at position `t`:
Go reads `element := pq.data[t]`, and on a `ParentID` match runs
`pq.data.update(pq.data[element.index], priority)`, which sets the priority
through the pointer and calls `heap.Fix` at the item's `index` field. -/
def updStep (pid : String) (p : Int) (l : QItems) (t : Nat) (cnt : Nat) :
    QItems × Nat :=
  let element := l.getD t dQ
  if element.parentID = pid then
    let index := element.index.toNat
    let l1 := l.set index { l.getD index dQ with priority := p }
    (fixQ l1 ((l1.getD index dQ).index).toNat, cnt + 1)
  else (l, cnt)

/-- The `range pq.data` loop of `UpdatePriorityByParentId`: the slice header
is captured once, so the loop visits positions `0,…,n-1` of the mutating
store (`n` fixed, since no iteration changes the length). -/
def updLoop (pid : String) (p : Int) : Nat → Nat → QItems → Nat → QItems × Nat
  | 0, _, l, cnt => (l, cnt)
  | r+1, t, l, cnt =>
    let s := updStep pid p l t cnt
    updLoop pid p r (t+1) s.1 s.2

/-- Go `(*PriorityQueue).UpdatePriorityByParentId`. -/
def PriorityQueue.UpdatePriorityByParentId (q : PriorityQueue)
    (parentID : String) (priority : Int) : PriorityQueue × Nat :=
  let r := updLoop parentID priority q.data.length 0 q.data 0
  (⟨r.1⟩, r.2)

/-- The `for pq.data.Len() > 0 { heap.Pop }` loop of `Clear`, fuelled (each
pop shortens the store, so `length` fuel suffices). -/
def clearLoop : Nat → QItems → QItems
  | 0, l => l
  | f+1, l => if 0 < l.length then clearLoop f (heapPop l).2 else l

/-- Go `(*PriorityQueue).Clear`. -/
def PriorityQueue.Clear (q : PriorityQueue) : PriorityQueue :=
  ⟨clearLoop q.data.length q.data⟩

/-- Go `(*PriorityQueue).Destroy`: `Clear` then `data = nil`. -/
def PriorityQueue.Destroy (_ : PriorityQueue) : PriorityQueue := ⟨[]⟩

/-- Go `locateItemByID`: linear scan for the first `ID` match, returning that
entry's `index` field; `-1` (turned into an error) when none matches. -/
def PriorityQueue.locateItemByID (q : PriorityQueue) (id : String) :
    Except String Int :=
  let index :=
    match q.data.find? (fun e => decide (e.id = id)) with
    | some e => e.index
    | none => -1
  if index = -1 then .error ("ID Not found: [" ++ id ++ "]")
  else .ok index

/-- Go `(*PriorityQueue).DeleteItemById`. -/
def PriorityQueue.DeleteItemById (q : PriorityQueue) (id : String) :
    PriorityQueue × Option String :=
  match q.locateItemByID id with
  | .error e => (q, some e)
  | .ok index =>
    match QItems.delete q.data index with
    | .error e => (q, some e)
    | .ok l1 => (⟨l1⟩, none)

/-- The `for index := range indexesToDelete` loop of
`DeleteItemsByParentId`: Go's single-variable `range` yields the **slice
positions** `0,…,k-1`, and it is this counter that is passed to `delete`. -/
def delLoop : Nat → Nat → QItems → Nat → QItems × Nat × Option String
  | 0, _, l, cnt => (l, cnt, none)
  | r+1, j, l, cnt =>
    match QItems.delete l (Int.ofNat j) with
    | .ok l1 => delLoop r (j+1) l1 (cnt+1)
    | .error e => (l, cnt, some e)

/-- Go `(*PriorityQueue).DeleteItemsByParentId`. -/
def PriorityQueue.DeleteItemsByParentId (q : PriorityQueue)
    (parentID : String) : PriorityQueue × Nat × Option String :=
  let indexesToDelete :=
    (q.data.filter (fun e => decide (e.parentID = parentID))).map
      (fun e => e.index)
  let r := delLoop indexesToDelete.length 0 q.data 0
  (⟨r.1⟩, r.2.1, r.2.2)

/-- Draining harness used by the spec's drain-based properties: repeated
façade `Pop` until empty, collecting the popped entries. -/
def drainLoop : Nat → PriorityQueue → List QItem
  | 0, _ => []
  | f+1, q =>
    match q.Pop with
    | (some x, _, q1) => x :: drainLoop f q1
    | (none, _, _) => []

/-- All entries yielded by draining the queue via `Pop`. -/
def drainItems (q : PriorityQueue) : List QItem := drainLoop q.Len q

/-- States reachable from a fresh queue through the public interface. -/
inductive Reachable : PriorityQueue → Prop
  | new : Reachable NewPriorityQueue
  | push (q : PriorityQueue) (x : QItem) :
      Reachable q → Reachable (q.Push x)
  | pop (q : PriorityQueue) : Reachable q → Reachable (q.Pop).2.2
  | update (q : PriorityQueue) (pid : String) (p : Int) :
      Reachable q → Reachable (q.UpdatePriorityByParentId pid p).1
  | deleteById (q : PriorityQueue) (id : String) :
      Reachable q → Reachable (q.DeleteItemById id).1
  | deleteByParentId (q : PriorityQueue) (pid : String) :
      Reachable q → Reachable (q.DeleteItemsByParentId pid).1
  | clear (q : PriorityQueue) : Reachable q → Reachable q.Clear
  | destroy (q : PriorityQueue) : Reachable q → Reachable q.Destroy

/-- Max-heap property on the prefix of length `n`: every non-root position is
bounded by its parent `(j-1)/2`. -/
def heapUpTo (l : QItems) (n : Nat) : Prop :=
  ∀ j, j < n → 0 < j → prio l j ≤ prio l ((j-1)/2)

/-- Max-heap property of the whole store. -/
def isHeap (l : QItems) : Prop := heapUpTo l l.length

/-- Position consistency: every stored entry's `index` field equals its
actual position. -/
def posConsistent (l : QItems) : Prop :=
  ∀ j, j < l.length → (l.getD j dQ).index = (j : Int)

/-- The caller-visible part of an entry (everything except the heap-internal
`index` field). -/
def strip (x : QItem) : String × String × Nat × Int :=
  (x.id, x.parentID, x.value, x.priority)

/-- Caller-visible contents of the store, in backing-store order. -/
def stripL (l : QItems) : List (String × String × Nat × Int) := l.map strip

/-! ## Index arithmetic for the implicit binary tree -/

theorem parent_lt {j : Nat} (h : 0 < j) : (j-1)/2 < j := by omega

theorem child_of_parent_eq {i k : Nat} (hk : 0 < k) (h : (k-1)/2 = i) :
    k = 2*i+1 ∨ k = 2*i+2 := by omega

theorem parent_child_left (i : Nat) : (2*i+1-1)/2 = i := by omega

theorem parent_child_right (i : Nat) : (2*i+2-1)/2 = i := by omega

/-! ## `getD`/`set` basics -/

theorem getD_set_self (l : QItems) (i : Nat) (a : QItem) (h : i < l.length) :
    (l.set i a).getD i dQ = a := by
  rw [List.getD_eq_getElem?_getD, List.getElem?_set_eq_of_lt a h]
  rfl

theorem getD_set_ne (l : QItems) (i j : Nat) (a : QItem) (h : i ≠ j) :
    (l.set i a).getD j dQ = l.getD j dQ := by
  rw [List.getD_eq_getElem?_getD, List.getElem?_set_ne h,
    ← List.getD_eq_getElem?_getD]

theorem getD_take (l : QItems) (n k : Nat) (h : k < n) :
    (l.take n).getD k dQ = l.getD k dQ := by
  rw [List.getD_eq_getElem?_getD, List.getElem?_take, if_pos h,
    ← List.getD_eq_getElem?_getD]

theorem getD_append_left (l m : QItems) (k : Nat) (h : k < l.length) :
    (l ++ m).getD k dQ = l.getD k dQ := by
  rw [List.getD_eq_getElem?_getD, List.getElem?_append, if_pos h,
    ← List.getD_eq_getElem?_getD]

theorem getD_append_last (l : QItems) (x : QItem) :
    (l ++ [x]).getD l.length dQ = x := by
  rw [List.getD_eq_getElem?_getD, List.getElem?_append, if_neg (by omega)]
  simp

theorem getD_last_of_take_drop (l : QItems) (n : Nat) (h : l.length = n + 1) :
    l = l.take n ++ [l.getD n dQ] := by
  have hn : n < l.length := by omega
  have := List.take_append_drop n l
  rw [List.drop_eq_getElem_cons hn] at this
  have hd : l.drop (n+1) = [] := List.drop_eq_nil_of_le (by omega)
  rw [hd] at this
  rw [List.getD_eq_getElem l dQ hn]
  exact this.symm

/-! ## `swapQ` -/

theorem length_swapQ (l : QItems) (i j : Nat) :
    (swapQ l i j).length = l.length := by
  simp [swapQ]

theorem getD_swapQ_snd (l : QItems) (i j : Nat) (hj : j < l.length) :
    (swapQ l i j).getD j dQ = { l.getD i dQ with index := (j : Int) } := by
  unfold swapQ
  exact getD_set_self _ j _ (by simpa using hj)

theorem getD_swapQ_fst (l : QItems) (i j : Nat) (hi : i < l.length)
    (hj : j < l.length) :
    (swapQ l i j).getD i dQ = { l.getD j dQ with index := (i : Int) } := by
  by_cases hij : i = j
  · subst hij
    exact getD_swapQ_snd l i i hi
  · unfold swapQ
    rw [getD_set_ne _ j i _ (fun h => hij h.symm)]
    exact getD_set_self _ i _ hi

theorem getD_swapQ_other (l : QItems) (i j k : Nat) (hik : k ≠ i)
    (hjk : k ≠ j) : (swapQ l i j).getD k dQ = l.getD k dQ := by
  unfold swapQ
  rw [getD_set_ne _ j k _ (fun h => hjk h.symm),
    getD_set_ne _ i k _ (fun h => hik h.symm)]

theorem prio_swapQ_fst (l : QItems) (i j : Nat) (hi : i < l.length)
    (hj : j < l.length) : prio (swapQ l i j) i = prio l j := by
  unfold prio
  rw [getD_swapQ_fst l i j hi hj]

theorem prio_swapQ_snd (l : QItems) (i j : Nat) (hj : j < l.length) :
    prio (swapQ l i j) j = prio l i := by
  unfold prio
  rw [getD_swapQ_snd l i j hj]

theorem prio_swapQ_other (l : QItems) (i j k : Nat) (hik : k ≠ i)
    (hjk : k ≠ j) : prio (swapQ l i j) k = prio l k := by
  unfold prio
  rw [getD_swapQ_other l i j k hik hjk]

theorem posConsistent_swapQ (l : QItems) (i j : Nat) (hi : i < l.length)
    (hj : j < l.length) (h : posConsistent l) :
    posConsistent (swapQ l i j) := by
  intro k hk
  rw [length_swapQ] at hk
  by_cases hkj : k = j
  · subst hkj
    rw [getD_swapQ_snd l i k hk]
  · by_cases hki : k = i
    · subst hki
      rw [getD_swapQ_fst l k j hk hj]
    · rw [getD_swapQ_other l i j k hki hkj]
      exact h k hk

/-! ## Permutation helpers -/

theorem cons_set_perm {α : Type} (x : α) (t : List α) (j : Nat) (d : α)
    (hj : j < t.length) : (t.getD j d :: t.set j x).Perm (x :: t) := by
  induction t generalizing j with
  | nil => simp at hj
  | cons a tt ih =>
    cases j with
    | zero =>
      simp only [List.getD_cons_zero, List.set_cons_zero]
      exact List.Perm.swap x a tt
    | succ m =>
      have hm : m < tt.length := by simpa using hj
      simp only [List.getD_cons_succ, List.set_cons_succ]
      exact (List.Perm.swap a (tt.getD m d) (tt.set m x)).trans
        (((ih m hm).cons a).trans (List.Perm.swap x a tt))

theorem set_set_perm {α : Type} (l : List α) (i j : Nat) (d : α)
    (hi : i < l.length) (hj : j < l.length) :
    ((l.set i (l.getD j d)).set j (l.getD i d)).Perm l := by
  induction l generalizing i j with
  | nil => simp at hi
  | cons a t ih =>
    cases i with
    | zero =>
      cases j with
      | zero => simp
      | succ m =>
        have hm : m < t.length := by simpa using hj
        simp only [List.getD_cons_succ, List.getD_cons_zero,
          List.set_cons_zero, List.set_cons_succ]
        exact cons_set_perm a t m d hm
    | succ k =>
      cases j with
      | zero =>
        have hk : k < t.length := by simpa using hi
        simp only [List.getD_cons_succ, List.getD_cons_zero,
          List.set_cons_zero, List.set_cons_succ]
        exact cons_set_perm a t k d hk
      | succ m =>
        have hk : k < t.length := by simpa using hi
        have hm : m < t.length := by simpa using hj
        simp only [List.getD_cons_succ, List.set_cons_succ]
        exact (ih k m hk hm).cons a

theorem strip_set_index (x : QItem) (c : Int) :
    strip { x with index := c } = strip x := rfl

theorem stripL_set (l : QItems) (i : Nat) (a : QItem) :
    stripL (l.set i a) = (stripL l).set i (strip a) := by
  simp [stripL, List.map_set]

theorem getD_stripL (l : QItems) (k : Nat) :
    (stripL l).getD k (strip dQ) = strip (l.getD k dQ) := by
  induction l generalizing k with
  | nil => simp [stripL]
  | cons a t ih =>
    cases k with
    | zero => simp [stripL]
    | succ m =>
      show (stripL t).getD m (strip dQ) = strip (t.getD m dQ)
      exact ih m

theorem length_stripL (l : QItems) : (stripL l).length = l.length := by
  simp [stripL]

theorem stripL_swapQ_perm (l : QItems) (i j : Nat) (hi : i < l.length)
    (hj : j < l.length) : (stripL (swapQ l i j)).Perm (stripL l) := by
  unfold swapQ
  rw [stripL_set, stripL_set]
  have e1 : strip { l.getD j dQ with index := (i : Int) } =
      (stripL l).getD j (strip dQ) := by rw [getD_stripL]; rfl
  have e2 : strip { l.getD i dQ with index := (j : Int) } =
      (stripL l).getD i (strip dQ) := by rw [getD_stripL]; rfl
  rw [e1, e2]
  exact set_set_perm (stripL l) i j (strip dQ)
    (by rw [length_stripL]; exact hi) (by rw [length_stripL]; exact hj)

theorem mem_of_strip_mem (l : QItems) (s : String × String × Nat × Int)
    (h : s ∈ stripL l) : ∃ y ∈ l, strip y = s := by
  obtain ⟨y, hy, hs⟩ := List.mem_map.mp h
  exact ⟨y, hy, hs⟩

theorem strip_mem_of_mem (l : QItems) (x : QItem) (h : x ∈ l) :
    strip x ∈ stripL l := List.mem_map_of_mem strip h

/-! ## `upA`: structural lemmas -/

theorem length_upA (fuel : Nat) (l : QItems) (j : Nat) :
    (upA fuel l j).length = l.length := by
  induction fuel generalizing l j with
  | zero => rfl
  | succ f ih =>
    unfold upA
    by_cases h0 : j = 0
    · simp [h0]
    · simp only [if_neg h0]
      by_cases hlt : prio l ((j-1)/2) < prio l j
      · rw [if_pos hlt, ih, length_swapQ]
      · rw [if_neg hlt]

theorem getD_upA_gt (fuel : Nat) (l : QItems) (j k : Nat) (hk : j < k) :
    (upA fuel l j).getD k dQ = l.getD k dQ := by
  induction fuel generalizing l j with
  | zero => rfl
  | succ f ih =>
    unfold upA
    by_cases h0 : j = 0
    · simp [h0]
    · simp only [if_neg h0]
      by_cases hlt : prio l ((j-1)/2) < prio l j
      · rw [if_pos hlt, ih _ _ (lt_trans (parent_lt (Nat.pos_of_ne_zero h0)) hk),
          getD_swapQ_other _ _ _ k (by omega) (by omega)]
      · rw [if_neg hlt]

theorem posConsistent_upA (fuel : Nat) (l : QItems) (j : Nat)
    (hj : j < l.length) (h : posConsistent l) : posConsistent (upA fuel l j) := by
  induction fuel generalizing l j with
  | zero => exact h
  | succ f ih =>
    unfold upA
    by_cases h0 : j = 0
    · simp only [if_pos h0]; exact h
    · simp only [if_neg h0]
      by_cases hlt : prio l ((j-1)/2) < prio l j
      · rw [if_pos hlt]
        have hp : (j-1)/2 < l.length := lt_trans (parent_lt (Nat.pos_of_ne_zero h0)) hj
        exact ih _ _ (by rw [length_swapQ]; exact hp)
          (posConsistent_swapQ l _ j hp hj h)
      · rw [if_neg hlt]; exact h

theorem stripL_upA_perm (fuel : Nat) (l : QItems) (j : Nat) (hj : j < l.length) :
    (stripL (upA fuel l j)).Perm (stripL l) := by
  induction fuel generalizing l j with
  | zero => exact List.Perm.refl _
  | succ f ih =>
    unfold upA
    by_cases h0 : j = 0
    · simp only [if_pos h0]; exact List.Perm.refl _
    · simp only [if_neg h0]
      by_cases hlt : prio l ((j-1)/2) < prio l j
      · rw [if_pos hlt]
        have hp : (j-1)/2 < l.length := lt_trans (parent_lt (Nat.pos_of_ne_zero h0)) hj
        exact (ih (swapQ l ((j-1)/2) j) ((j-1)/2)
            (by rw [length_swapQ]; exact hp)).trans
          (stripL_swapQ_perm l ((j-1)/2) j hp hj)
      · rw [if_neg hlt]

theorem drop_swapQ (l : QItems) (i j m : Nat) (hi : i < m) (hj : j < m) :
    (swapQ l i j).drop m = l.drop m := by
  have hlen : (swapQ l i j).length = l.length := length_swapQ l i j
  apply List.ext_getElem?
  intro k
  rw [List.getElem?_drop, List.getElem?_drop]
  have h1 : (swapQ l i j).getD (m+k) dQ = l.getD (m+k) dQ :=
    getD_swapQ_other l i j (m+k) (by omega) (by omega)
  by_cases hk : m + k < l.length
  · rw [List.getD_eq_getElem (swapQ l i j) dQ (by omega),
      List.getD_eq_getElem l dQ hk] at h1
    rw [List.getElem?_eq_getElem hk,
      List.getElem?_eq_getElem (show m + k < (swapQ l i j).length by omega)]
    exact congrArg some h1
  · rw [List.getElem?_eq_none (show l.length ≤ m + k by omega),
      List.getElem?_eq_none (show (swapQ l i j).length ≤ m + k by omega)]

theorem drop_upA (fuel : Nat) (l : QItems) (j m : Nat) (hm : j < m) :
    (upA fuel l j).drop m = l.drop m := by
  induction fuel generalizing l j with
  | zero => rfl
  | succ f ih =>
    unfold upA
    by_cases h0 : j = 0
    · simp [h0]
    · simp only [if_neg h0]
      by_cases hlt : prio l ((j-1)/2) < prio l j
      · rw [if_pos hlt, ih _ _ (lt_trans (parent_lt (Nat.pos_of_ne_zero h0)) hm),
          drop_swapQ _ _ _ m (by omega) hm]
      · rw [if_neg hlt]

/-! ## `downA`: structural lemmas -/

theorem length_downA (fuel : Nat) (l : QItems) (i n : Nat) :
    (downA fuel l i n).1.length = l.length := by
  induction fuel generalizing l i with
  | zero => rfl
  | succ f ih =>
    unfold downA
    by_cases hc : 2*i+1 < n
    · simp only [if_pos hc]
      by_cases hlt : prio l i <
          prio l (if 2*i+2 < n ∧ prio l (2*i+1) < prio l (2*i+2) then 2*i+2 else 2*i+1)
      · rw [if_pos hlt, ih, length_swapQ]
      · rw [if_neg hlt]
    · rw [if_neg hc]

theorem getD_downA_ge (fuel : Nat) (l : QItems) (i n k : Nat) (hk : n ≤ k) :
    (downA fuel l i n).1.getD k dQ = l.getD k dQ := by
  induction fuel generalizing l i with
  | zero => rfl
  | succ f ih =>
    unfold downA
    by_cases hc : 2*i+1 < n
    · simp only [if_pos hc]
      by_cases hlt : prio l i <
          prio l (if 2*i+2 < n ∧ prio l (2*i+1) < prio l (2*i+2) then 2*i+2 else 2*i+1)
      · rw [if_pos hlt, ih, getD_swapQ_other]
        · omega
        · split <;> omega
      · rw [if_neg hlt]
    · rw [if_neg hc]

theorem drop_downA (fuel : Nat) (l : QItems) (i n m : Nat) (hm : n ≤ m) :
    (downA fuel l i n).1.drop m = l.drop m := by
  induction fuel generalizing l i with
  | zero => rfl
  | succ f ih =>
    unfold downA
    by_cases hc : 2*i+1 < n
    · simp only [if_pos hc]
      by_cases hlt : prio l i <
          prio l (if 2*i+2 < n ∧ prio l (2*i+1) < prio l (2*i+2) then 2*i+2 else 2*i+1)
      · rw [if_pos hlt, ih, drop_swapQ]
        · omega
        · split <;> omega
      · rw [if_neg hlt]
    · rw [if_neg hc]

theorem posConsistent_downA (fuel : Nat) (l : QItems) (i n : Nat)
    (hn : n ≤ l.length) (h : posConsistent l) :
    posConsistent (downA fuel l i n).1 := by
  induction fuel generalizing l i with
  | zero => exact h
  | succ f ih =>
    unfold downA
    by_cases hc : 2*i+1 < n
    · simp only [if_pos hc]
      by_cases hlt : prio l i <
          prio l (if 2*i+2 < n ∧ prio l (2*i+1) < prio l (2*i+2) then 2*i+2 else 2*i+1)
      · rw [if_pos hlt]
        refine ih _ _ (by rw [length_swapQ]; exact hn) ?PC
        exact posConsistent_swapQ l i _ (by omega) (by split <;> omega) h
      · rw [if_neg hlt]; exact h
    · rw [if_neg hc]; exact h

theorem stripL_downA_perm (fuel : Nat) (l : QItems) (i n : Nat)
    (hn : n ≤ l.length) : (stripL (downA fuel l i n).1).Perm (stripL l) := by
  induction fuel generalizing l i with
  | zero => exact List.Perm.refl _
  | succ f ih =>
    unfold downA
    by_cases hc : 2*i+1 < n
    · simp only [if_pos hc]
      by_cases hlt : prio l i <
          prio l (if 2*i+2 < n ∧ prio l (2*i+1) < prio l (2*i+2) then 2*i+2 else 2*i+1)
      · rw [if_pos hlt]
        refine (ih _ _ (by rw [length_swapQ]; exact hn)).trans ?PM
        exact stripL_swapQ_perm l i _ (by omega) (by split <;> omega)
      · rw [if_neg hlt]
    · rw [if_neg hc]

theorem downA_snd_ge (fuel : Nat) (l : QItems) (i n : Nat) :
    i ≤ (downA fuel l i n).2 := by
  induction fuel generalizing l i with
  | zero => exact Nat.le_refl i
  | succ f ih =>
    unfold downA
    by_cases hc : 2*i+1 < n
    · simp only [if_pos hc]
      by_cases hlt : prio l i <
          prio l (if 2*i+2 < n ∧ prio l (2*i+1) < prio l (2*i+2) then 2*i+2 else 2*i+1)
      · rw [if_pos hlt]
        refine le_trans ?LE (ih (swapQ l i _) _)
        split <;> omega
      · rw [if_neg hlt]
    · rw [if_neg hc]

theorem downA_fst_of_snd_eq (fuel : Nat) (l : QItems) (i n : Nat)
    (h : (downA fuel l i n).2 = i) : (downA fuel l i n).1 = l := by
  cases fuel with
  | zero => rfl
  | succ f =>
    unfold downA at h ⊢
    by_cases hc : 2*i+1 < n
    · simp only [if_pos hc] at h ⊢
      by_cases hlt : prio l i <
          prio l (if 2*i+2 < n ∧ prio l (2*i+1) < prio l (2*i+2) then 2*i+2 else 2*i+1)
      · exfalso
        rw [if_pos hlt] at h
        have hge := downA_snd_ge f (swapQ l i
          (if 2*i+2 < n ∧ prio l (2*i+1) < prio l (2*i+2) then 2*i+2 else 2*i+1))
          (if 2*i+2 < n ∧ prio l (2*i+1) < prio l (2*i+2) then 2*i+2 else 2*i+1) n
        rw [h] at hge
        revert hge
        split <;> omega
      · rw [if_neg hlt]
    · rw [if_neg hc]

theorem downA_no_move (fuel : Nat) (l : QItems) (i n : Nat)
    (h : ∀ k, k < n → (k-1)/2 = i → 0 < k → prio l k ≤ prio l i) :
    downA fuel l i n = (l, i) := by
  cases fuel with
  | zero => rfl
  | succ f =>
    unfold downA
    by_cases hc : 2*i+1 < n
    · simp only [if_pos hc]
      have hj : ∀ jj, jj < n → (jj-1)/2 = i → 0 < jj →
          ¬ (prio l i < prio l jj) := fun jj h1 h2 h3 => not_lt.mpr (h jj h1 h2 h3)
      by_cases h2 : 2*i+2 < n ∧ prio l (2*i+1) < prio l (2*i+2)
      · rw [if_pos h2, if_neg (hj (2*i+2) h2.1 (parent_child_right i) (by omega))]
      · rw [if_neg h2, if_neg (hj (2*i+1) hc (parent_child_left i) (by omega))]
    · rw [if_neg hc]

/-! ## Heap restoration by `up` -/

theorem upA_heap (fuel : Nat) (l : QItems) (n j : Nat) (hf : j < fuel)
    (hj : j < n) (hn : n ≤ l.length)
    (H1 : ∀ k, k < n → 0 < k → k ≠ j → prio l k ≤ prio l ((k-1)/2))
    (H2 : ∀ k, k < n → (k-1)/2 = j → 0 < j → prio l k ≤ prio l ((j-1)/2)) :
    heapUpTo (upA fuel l j) n := by
  induction fuel generalizing l j with
  | zero => omega
  | succ f ih =>
    unfold upA
    by_cases h0 : j = 0
    · simp only [if_pos h0]
      intro k hk hk0
      exact H1 k hk hk0 (by omega)
    · simp only [if_neg h0]
      have hj0 : 0 < j := Nat.pos_of_ne_zero h0
      have hpj : (j-1)/2 < j := parent_lt hj0
      have hpl : (j-1)/2 < l.length := by omega
      have hjl : j < l.length := by omega
      by_cases hlt : prio l ((j-1)/2) < prio l j
      · rw [if_pos hlt]
        have ppj : prio (swapQ l ((j-1)/2) j) ((j-1)/2) = prio l j :=
          prio_swapQ_fst l ((j-1)/2) j hpl hjl
        have pjj : prio (swapQ l ((j-1)/2) j) j = prio l ((j-1)/2) :=
          prio_swapQ_snd l ((j-1)/2) j hjl
        have poth : ∀ k, k ≠ (j-1)/2 → k ≠ j →
            prio (swapQ l ((j-1)/2) j) k = prio l k :=
          fun k h1 h2 => prio_swapQ_other l ((j-1)/2) j k h1 h2
        refine ih (swapQ l ((j-1)/2) j) ((j-1)/2) (by omega) (by omega)
          (by rw [length_swapQ]; exact hn) ?ha ?hb
        · intro k hk hk0 hkp
          by_cases hkj : k = j
          · subst hkj
            rw [pjj, ppj]
            exact le_of_lt hlt
          · have hk' := poth k hkp hkj
            by_cases hp1 : (k-1)/2 = j
            · rw [hk', hp1, pjj]
              exact H2 k hk hp1 hj0
            · by_cases hp2 : (k-1)/2 = (j-1)/2
              · rw [hk', hp2, ppj]
                have h3 := H1 k hk hk0 hkj
                rw [hp2] at h3
                exact le_trans h3 (le_of_lt hlt)
              · rw [hk', poth ((k-1)/2) hp2 hp1]
                exact H1 k hk hk0 hkj
        · intro k hk hpar hp0
          have hgp : ((j-1)/2-1)/2 ≠ (j-1)/2 := by omega
          have hgj : ((j-1)/2-1)/2 ≠ j := by omega
          have hpar' := poth (((j-1)/2-1)/2) hgp hgj
          by_cases hkj : k = j
          · rw [hkj, pjj, hpar']
            exact H1 ((j-1)/2) (by omega) hp0 (by omega)
          · have hkp : k ≠ (j-1)/2 := by omega
            rw [poth k hkp hkj, hpar']
            have h1 := H1 k hk (by omega) hkj
            rw [hpar] at h1
            have h2 := H1 ((j-1)/2) (by omega) hp0 (by omega)
            exact le_trans h1 h2
      · rw [if_neg hlt]
        intro k hk hk0
        by_cases hkj : k = j
        · subst hkj
          exact not_lt.mp hlt
        · exact H1 k hk hk0 hkj

/-! ## Heap restoration by `down` -/

theorem down_stop_heap (l : QItems) (i n : Nat)
    (D1 : ∀ k, k < n → 0 < k → (k-1)/2 ≠ i → prio l k ≤ prio l ((k-1)/2))
    (hsib : ∀ k, k < n → (k-1)/2 = i → 0 < k → prio l k ≤ prio l i) :
    heapUpTo l n := by
  intro k hk hk0
  by_cases hpk : (k-1)/2 = i
  · rw [hpk]
    exact hsib k hk hpk hk0
  · exact D1 k hk hk0 hpk

theorem down_step_D1 (l : QItems) (i j n : Nat) (hn : n ≤ l.length)
    (hij : (j-1)/2 = i) (higt : i < j) (hjn : j < n)
    (hlt : prio l i < prio l j)
    (hsib : ∀ k, k < n → (k-1)/2 = i → 0 < k → prio l k ≤ prio l j)
    (D1 : ∀ k, k < n → 0 < k → (k-1)/2 ≠ i → prio l k ≤ prio l ((k-1)/2))
    (D2 : 0 < i → ∀ k, k < n → (k-1)/2 = i → prio l k ≤ prio l ((i-1)/2)) :
    ∀ k, k < n → 0 < k → (k-1)/2 ≠ j →
      prio (swapQ l i j) k ≤ prio (swapQ l i j) ((k-1)/2) := by
  have hil : i < l.length := by omega
  have hjl : j < l.length := by omega
  have pij : prio (swapQ l i j) i = prio l j := prio_swapQ_fst l i j hil hjl
  have pji : prio (swapQ l i j) j = prio l i := prio_swapQ_snd l i j hjl
  have poth : ∀ k, k ≠ i → k ≠ j → prio (swapQ l i j) k = prio l k :=
    fun k h1 h2 => prio_swapQ_other l i j k h1 h2
  intro k hk hk0 hpk
  by_cases hkj : k = j
  · subst hkj
    rw [hij, pji, pij]
    exact le_of_lt hlt
  · by_cases hki : k = i
    · subst hki
      have hg1 : (k-1)/2 ≠ k := by omega
      have hg2 : (k-1)/2 ≠ j := by omega
      rw [pij, poth ((k-1)/2) hg1 hg2]
      exact D2 hk0 j hjn hij
    · by_cases hpki : (k-1)/2 = i
      · rw [poth k hki hkj, hpki, pij]
        exact hsib k hk hpki hk0
      · rw [poth k hki hkj, poth ((k-1)/2) hpki hpk]
        exact D1 k hk hk0 hpki

theorem down_step_D2 (l : QItems) (i j n : Nat) (hn : n ≤ l.length)
    (hij : (j-1)/2 = i) (higt : i < j) (hjn : j < n)
    (D1 : ∀ k, k < n → 0 < k → (k-1)/2 ≠ i → prio l k ≤ prio l ((k-1)/2)) :
    0 < j → ∀ k, k < n → (k-1)/2 = j →
      prio (swapQ l i j) k ≤ prio (swapQ l i j) ((j-1)/2) := by
  have hil : i < l.length := by omega
  have hjl : j < l.length := by omega
  intro _ k hk hpark
  have hkj : j < k := by omega
  rw [hij, prio_swapQ_fst l i j hil hjl,
    prio_swapQ_other l i j k (by omega) (by omega)]
  have h1 := D1 k hk (by omega) (by omega)
  rw [hpark] at h1
  exact h1

theorem downA_heap (fuel : Nat) (l : QItems) (i n : Nat) (hn : n ≤ l.length)
    (hf : n ≤ fuel + i)
    (D1 : ∀ k, k < n → 0 < k → (k-1)/2 ≠ i → prio l k ≤ prio l ((k-1)/2))
    (D2 : 0 < i → ∀ k, k < n → (k-1)/2 = i → prio l k ≤ prio l ((i-1)/2)) :
    heapUpTo (downA fuel l i n).1 n := by
  induction fuel generalizing l i with
  | zero =>
    refine down_stop_heap l i n D1 ?hs
    intro k hk hpar hk0
    rcases child_of_parent_eq hk0 hpar with h | h <;> omega
  | succ f ih =>
    unfold downA
    by_cases hc : 2*i+1 < n
    · simp only [if_pos hc]
      by_cases h2 : 2*i+2 < n ∧ prio l (2*i+1) < prio l (2*i+2)
      · rw [if_pos h2]
        have hmax : ∀ k, k < n → (k-1)/2 = i → 0 < k → prio l k ≤ prio l (2*i+2) := by
          intro k hk hpar hk0
          rcases child_of_parent_eq hk0 hpar with h | h
          · subst h; exact le_of_lt h2.2
          · subst h; exact le_refl _
        by_cases hlt : prio l i < prio l (2*i+2)
        · rw [if_pos hlt]
          exact ih (swapQ l i (2*i+2)) (2*i+2)
            (by rw [length_swapQ]; exact hn) (by omega)
            (down_step_D1 l i (2*i+2) n hn (parent_child_right i) (by omega)
              h2.1 hlt hmax D1 D2)
            (down_step_D2 l i (2*i+2) n hn (parent_child_right i) (by omega)
              h2.1 D1)
        · rw [if_neg hlt]
          refine down_stop_heap l i n D1 ?hs1
          intro k hk hpar hk0
          exact le_trans (hmax k hk hpar hk0) (not_lt.mp hlt)
      · rw [if_neg h2]
        have hmax : ∀ k, k < n → (k-1)/2 = i → 0 < k → prio l k ≤ prio l (2*i+1) := by
          intro k hk hpar hk0
          rcases child_of_parent_eq hk0 hpar with h | h
          · subst h; exact le_refl _
          · subst h
            have h3 : ¬ prio l (2*i+1) < prio l (2*i+2) := fun hcon => h2 ⟨by omega, hcon⟩
            exact not_lt.mp h3
        by_cases hlt : prio l i < prio l (2*i+1)
        · rw [if_pos hlt]
          exact ih (swapQ l i (2*i+1)) (2*i+1)
            (by rw [length_swapQ]; exact hn) (by omega)
            (down_step_D1 l i (2*i+1) n hn (parent_child_left i) (by omega)
              hc hlt hmax D1 D2)
            (down_step_D2 l i (2*i+1) n hn (parent_child_left i) (by omega)
              hc D1)
        · rw [if_neg hlt]
          refine down_stop_heap l i n D1 ?hs2
          intro k hk hpar hk0
          exact le_trans (hmax k hk hpar hk0) (not_lt.mp hlt)
    · rw [if_neg hc]
      refine down_stop_heap l i n D1 ?hs3
      intro k hk hpar hk0
      rcases child_of_parent_eq hk0 hpar with h | h <;> omega

/-! ## Heap restoration by `Fix` -/

theorem fixB_heap (l : QItems) (i n : Nat) (hn : n ≤ l.length) (hi : i < n)
    (F1 : ∀ k, k < n → 0 < k → k ≠ i → (k-1)/2 ≠ i → prio l k ≤ prio l ((k-1)/2))
    (F2 : 0 < i → ∀ k, k < n → (k-1)/2 = i → prio l k ≤ prio l ((i-1)/2)) :
    heapUpTo (fixB l i n) n := by
  unfold fixB downHeap
  by_cases hpar : 0 < i ∧ prio l ((i-1)/2) < prio l i
  · have hnm : downA n l i n = (l, i) := by
      refine downA_no_move n l i n ?hmax
      intro k hk hp hk0
      exact le_of_lt (lt_of_le_of_lt (F2 hpar.1 k hk hp) hpar.2)
    rw [hnm]
    simp only [lt_irrefl, if_false]
    refine upA_heap (i+1) l n i (Nat.lt_succ_self i) hi hn ?H1 ?H2
    · intro k hk hk0 hki
      by_cases hpk : (k-1)/2 = i
      · rw [hpk]
        exact le_of_lt (lt_of_le_of_lt (F2 hpar.1 k hk hpk) hpar.2)
      · exact F1 k hk hk0 hki hpk
    · intro k hk hp h0
      exact F2 h0 k hk hp
  · have hp2 : 0 < i → prio l i ≤ prio l ((i-1)/2) := by
      intro h0
      by_contra hcon
      exact hpar ⟨h0, not_le.mp hcon⟩
    have D1 : ∀ k, k < n → 0 < k → (k-1)/2 ≠ i → prio l k ≤ prio l ((k-1)/2) := by
      intro k hk hk0 hpk
      by_cases hki : k = i
      · rw [hki]
        exact hp2 (by omega)
      · exact F1 k hk hk0 hki hpk
    have hd := downA_heap n l i n hn (by omega) D1 F2
    by_cases hmv : i < (downA n l i n).2
    · rw [if_pos hmv]
      exact hd
    · rw [if_neg hmv]
      have heq : (downA n l i n).2 = i :=
        le_antisymm (not_lt.mp hmv) (downA_snd_ge n l i n)
      have hfst : (downA n l i n).1 = l := downA_fst_of_snd_eq n l i n heq
      rw [hfst]
      rw [hfst] at hd
      refine upA_heap (i+1) l n i (Nat.lt_succ_self i) hi hn ?H1b ?H2b
      · intro k hk hk0 _
        exact hd k hk hk0
      · intro k hk hp h0
        have h1 := hd k hk (by omega)
        rw [hp] at h1
        have h3 := hd i hi h0
        exact le_trans h1 h3

/-! ## Prefix extraction -/

theorem heapUpTo_mono (l : QItems) (m n : Nat) (hmn : m ≤ n)
    (h : heapUpTo l n) : heapUpTo l m :=
  fun k hk h0 => h k (lt_of_lt_of_le hk hmn) h0

theorem prio_take (l : QItems) (n k : Nat) (h : k < n) :
    prio (l.take n) k = prio l k := by
  unfold prio
  rw [getD_take l n k h]

theorem isHeap_take (l : QItems) (n : Nat) (hn : n ≤ l.length)
    (h : heapUpTo l n) : isHeap (l.take n) := by
  unfold isHeap
  intro k hk hk0
  rw [List.length_take_of_le hn] at hk
  rw [prio_take l n k hk, prio_take l n ((k-1)/2) (by omega)]
  exact h k hk hk0

theorem posConsistent_take (l : QItems) (n : Nat) (hn : n ≤ l.length)
    (h : posConsistent l) : posConsistent (l.take n) := by
  intro k hk
  rw [List.length_take_of_le hn] at hk
  rw [getD_take l n k hk]
  exact h k (by omega)

/-! ## `heapPush` -/

theorem length_pushItem (l : QItems) (x : QItem) :
    (pushItem l x).length = l.length + 1 := by
  simp [pushItem]

theorem length_upHeap (l : QItems) (j : Nat) :
    (upHeap l j).length = l.length := by
  unfold upHeap
  rw [length_upA]

theorem length_heapPush (l : QItems) (x : QItem) :
    (heapPush l x).length = l.length + 1 := by
  unfold heapPush
  rw [length_upHeap, length_pushItem]

theorem prio_pushItem_old (l : QItems) (x : QItem) (k : Nat) (hk : k < l.length) :
    prio (pushItem l x) k = prio l k := by
  unfold prio pushItem
  rw [getD_append_left l _ k hk]

theorem isHeap_heapPush (l : QItems) (x : QItem) (h : isHeap l) :
    isHeap (heapPush l x) := by
  unfold heapPush upHeap isHeap
  rw [length_upA, length_pushItem, Nat.add_sub_cancel]
  refine upA_heap (l.length + 1) (pushItem l x) (l.length + 1) l.length
    (by omega) (by omega) (by rw [length_pushItem]) ?H1 ?H2
  · intro k hk hk0 hkj
    have hk2 : k < l.length := by omega
    rw [prio_pushItem_old l x k hk2, prio_pushItem_old l x ((k-1)/2) (by omega)]
    exact h k hk2 hk0
  · intro k hk hp h0
    omega

theorem posConsistent_pushItem (l : QItems) (x : QItem) (h : posConsistent l) :
    posConsistent (pushItem l x) := by
  intro k hk
  rw [length_pushItem] at hk
  by_cases hkl : k < l.length
  · unfold pushItem
    rw [getD_append_left l _ k hkl]
    exact h k hkl
  · have hke : k = l.length := by omega
    subst hke
    unfold pushItem
    rw [getD_append_last]

theorem posConsistent_heapPush (l : QItems) (x : QItem) (h : posConsistent l) :
    posConsistent (heapPush l x) := by
  unfold heapPush upHeap
  refine posConsistent_upA _ (pushItem l x) _ ?hb (posConsistent_pushItem l x h)
  rw [length_pushItem]
  omega

theorem stripL_pushItem (l : QItems) (x : QItem) :
    stripL (pushItem l x) = stripL l ++ [strip x] := by
  simp [stripL, pushItem, strip]

theorem stripL_heapPush_perm (l : QItems) (x : QItem) :
    (stripL (heapPush l x)).Perm (stripL l ++ [strip x]) := by
  unfold heapPush upHeap
  refine (stripL_upA_perm _ (pushItem l x) _ ?hb).trans ?he
  · rw [length_pushItem]
    omega
  · rw [stripL_pushItem]

theorem stripL_decomp (l : QItems) (m : Nat) (h : l.length = m + 1) :
    stripL l = stripL (l.take m) ++ [strip (l.getD m dQ)] := by
  conv_lhs => rw [getD_last_of_take_drop l m h]
  simp [stripL]

/-! ## `fixB` auxiliary lemmas -/

theorem length_fixB (l : QItems) (i n : Nat) :
    (fixB l i n).length = l.length := by
  unfold fixB downHeap
  by_cases hmv : i < (downA n l i n).2
  · rw [if_pos hmv, length_downA]
  · rw [if_neg hmv, length_upHeap, length_downA]

theorem length_fixQ (l : QItems) (i : Nat) :
    (fixQ l i).length = l.length := by
  unfold fixQ
  rw [length_fixB]

theorem posConsistent_fixB (l : QItems) (i n : Nat) (hn : n ≤ l.length)
    (hi : i < l.length) (h : posConsistent l) : posConsistent (fixB l i n) := by
  unfold fixB downHeap
  have hd := posConsistent_downA n l i n hn h
  by_cases hmv : i < (downA n l i n).2
  · rw [if_pos hmv]
    exact hd
  · rw [if_neg hmv]
    unfold upHeap
    refine posConsistent_upA _ _ i ?hb hd
    rw [length_downA]
    exact hi

theorem stripL_fixB_perm (l : QItems) (i n : Nat) (hn : n ≤ l.length)
    (hi : i < l.length) : (stripL (fixB l i n)).Perm (stripL l) := by
  unfold fixB downHeap
  have hd := stripL_downA_perm n l i n hn
  by_cases hmv : i < (downA n l i n).2
  · rw [if_pos hmv]
    exact hd
  · rw [if_neg hmv]
    unfold upHeap
    refine (stripL_upA_perm _ _ i ?hb).trans hd
    rw [length_downA]
    exact hi

theorem getD_fixB_ge (l : QItems) (i n k : Nat) (hk : n ≤ k) (hik : i < n) :
    (fixB l i n).getD k dQ = l.getD k dQ := by
  unfold fixB downHeap
  by_cases hmv : i < (downA n l i n).2
  · rw [if_pos hmv, getD_downA_ge _ _ _ _ _ hk]
  · rw [if_neg hmv]
    unfold upHeap
    rw [getD_upA_gt _ _ i k (by omega), getD_downA_ge _ _ _ _ _ hk]

/-! ## `heapPop` -/

theorem length_heapPop_snd (l : QItems) :
    (heapPop l).2.length = l.length - 1 := by
  simp only [heapPop, popItem, downHeap]
  simp only [List.length_take, length_downA, length_swapQ]
  omega

theorem isHeap_heapPop (l : QItems) (h : isHeap l) (hne : 0 < l.length) :
    isHeap (heapPop l).2 := by
  simp only [heapPop, popItem, downHeap]
  have hlen : (downA (l.length-1) (swapQ l 0 (l.length-1)) 0 (l.length-1)).1.length
      = l.length := by rw [length_downA, length_swapQ]
  rw [hlen]
  refine isHeap_take _ _ (by omega) ?hh
  refine downA_heap (l.length-1) (swapQ l 0 (l.length-1)) 0 (l.length-1)
    (by rw [length_swapQ]; omega) (by omega) ?D1 ?D2
  · intro k hk hk0 hpk
    rw [prio_swapQ_other l 0 (l.length-1) k (by omega) (by omega),
      prio_swapQ_other l 0 (l.length-1) ((k-1)/2) (by omega) (by omega)]
    exact h k (by omega) hk0
  · omega

theorem posConsistent_heapPop (l : QItems) (h : posConsistent l)
    (hne : 0 < l.length) : posConsistent (heapPop l).2 := by
  simp only [heapPop, popItem, downHeap]
  have hlen : (downA (l.length-1) (swapQ l 0 (l.length-1)) 0 (l.length-1)).1.length
      = l.length := by rw [length_downA, length_swapQ]
  rw [hlen]
  refine posConsistent_take _ _ (by omega) ?hp
  refine posConsistent_downA _ _ 0 _ (by rw [length_swapQ]; omega) ?hq
  exact posConsistent_swapQ l 0 (l.length-1) (by omega) (by omega) h

theorem heapPop_fst (l : QItems) (hne : 0 < l.length) :
    (heapPop l).1 = { l.getD 0 dQ with index := -1 } := by
  simp only [heapPop, popItem, downHeap]
  have hlen : (downA (l.length-1) (swapQ l 0 (l.length-1)) 0 (l.length-1)).1.length
      = l.length := by rw [length_downA, length_swapQ]
  rw [hlen, getD_downA_ge _ _ _ _ _ (Nat.le_refl _),
    getD_swapQ_snd l 0 (l.length-1) (by omega)]

theorem heapPop_stripL_perm (l : QItems) (hne : 0 < l.length) :
    (strip (l.getD 0 dQ) :: stripL (heapPop l).2).Perm (stripL l) := by
  simp only [heapPop, popItem, downHeap]
  have hlen : (downA (l.length-1) (swapQ l 0 (l.length-1)) 0 (l.length-1)).1.length
      = l.length := by rw [length_downA, length_swapQ]
  have hdec := stripL_decomp (downA (l.length-1) (swapQ l 0 (l.length-1)) 0
    (l.length-1)).1 (l.length-1) (by omega)
  have hroot : (downA (l.length-1) (swapQ l 0 (l.length-1)) 0
      (l.length-1)).1.getD (l.length-1) dQ
      = { l.getD 0 dQ with index := ((l.length-1 : Nat) : Int) } := by
    rw [getD_downA_ge _ _ _ _ _ (Nat.le_refl _),
      getD_swapQ_snd l 0 (l.length-1) (by omega)]
  have hperm : (stripL (downA (l.length-1) (swapQ l 0 (l.length-1)) 0
      (l.length-1)).1).Perm (stripL l) := by
    refine (stripL_downA_perm _ _ 0 _ (by rw [length_swapQ]; omega)).trans ?hq
    exact stripL_swapQ_perm l 0 (l.length-1) (by omega) (by omega)
  rw [hroot] at hdec
  rw [hlen]
  have hstr : strip { l.getD 0 dQ with index := ((l.length-1 : Nat) : Int) }
      = strip (l.getD 0 dQ) := rfl
  rw [hstr] at hdec
  rw [hdec] at hperm
  exact (List.perm_append_singleton _ _).symm.trans hperm

/-! ## `heapRemove` -/

theorem length_heapRemove_snd (l : QItems) (i : Nat) :
    (heapRemove l i).2.length = l.length - 1 := by
  simp only [heapRemove, popItem]
  by_cases hi : i = l.length - 1
  · rw [if_pos hi]
    simp
  · rw [if_neg hi]
    simp only [List.length_take, length_fixB, length_swapQ]
    omega

theorem isHeap_heapRemove (l : QItems) (i : Nat) (h : isHeap l)
    (hi : i < l.length) : isHeap (heapRemove l i).2 := by
  simp only [heapRemove, popItem]
  by_cases hie : i = l.length - 1
  · rw [if_pos hie]
    exact isHeap_take l (l.length - 1) (by omega)
      (heapUpTo_mono l (l.length - 1) l.length (by omega) h)
  · rw [if_neg hie]
    have hlt : i < l.length - 1 := by omega
    have hlen : (fixB (swapQ l i (l.length-1)) i (l.length-1)).length = l.length := by
      rw [length_fixB, length_swapQ]
    rw [hlen]
    refine isHeap_take _ _ (by omega) ?hh
    refine fixB_heap (swapQ l i (l.length-1)) i (l.length-1)
      (by rw [length_swapQ]; omega) hlt ?F1 ?F2
    · intro k hk hk0 hki hpk
      rw [prio_swapQ_other l i (l.length-1) k hki (by omega),
        prio_swapQ_other l i (l.length-1) ((k-1)/2) hpk (by omega)]
      exact h k (by omega) hk0
    · intro h0 k hk hpk
      have hki : k ≠ i := by omega
      have hpi : (i-1)/2 ≠ i := by omega
      rw [prio_swapQ_other l i (l.length-1) k hki (by omega),
        prio_swapQ_other l i (l.length-1) ((i-1)/2) hpi (by omega)]
      have h1 := h k (by omega) (by omega)
      rw [hpk] at h1
      have h2 := h i (by omega) h0
      exact le_trans h1 h2

theorem posConsistent_heapRemove (l : QItems) (i : Nat) (h : posConsistent l)
    (hi : i < l.length) : posConsistent (heapRemove l i).2 := by
  simp only [heapRemove, popItem]
  by_cases hie : i = l.length - 1
  · rw [if_pos hie]
    exact posConsistent_take l (l.length - 1) (by omega) h
  · rw [if_neg hie]
    have hlen : (fixB (swapQ l i (l.length-1)) i (l.length-1)).length = l.length := by
      rw [length_fixB, length_swapQ]
    rw [hlen]
    refine posConsistent_take _ _ (by omega) ?hp
    refine posConsistent_fixB _ i (l.length-1) (by rw [length_swapQ]; omega)
      (by rw [length_swapQ]; omega) ?hq
    exact posConsistent_swapQ l i (l.length-1) hi (by omega) h

theorem stripL_heapRemove_perm (l : QItems) (i : Nat) (hi : i < l.length) :
    (stripL (heapRemove l i).2 ++ [strip (l.getD i dQ)]).Perm (stripL l) := by
  simp only [heapRemove, popItem]
  by_cases hie : i = l.length - 1
  · rw [if_pos hie]
    have hdec := stripL_decomp l (l.length - 1) (by omega)
    rw [hie, ← hdec]
  · rw [if_neg hie]
    have hlt : i < l.length - 1 := by omega
    have hlen : (fixB (swapQ l i (l.length-1)) i (l.length-1)).length = l.length := by
      rw [length_fixB, length_swapQ]
    have hroot : (fixB (swapQ l i (l.length-1)) i (l.length-1)).getD
        (l.length-1) dQ
        = { l.getD i dQ with index := ((l.length-1 : Nat) : Int) } := by
      rw [getD_fixB_ge _ i (l.length-1) (l.length-1) (Nat.le_refl _) hlt,
        getD_swapQ_snd l i (l.length-1) (by omega)]
    have hdec := stripL_decomp (fixB (swapQ l i (l.length-1)) i (l.length-1))
      (l.length-1) (by omega)
    rw [hroot] at hdec
    have hstr : strip { l.getD i dQ with index := ((l.length-1 : Nat) : Int) }
        = strip (l.getD i dQ) := rfl
    rw [hstr] at hdec
    have hperm : (stripL (fixB (swapQ l i (l.length-1)) i (l.length-1))).Perm
        (stripL l) := by
      refine (stripL_fixB_perm _ i (l.length-1) (by rw [length_swapQ]; omega)
        (by rw [length_swapQ]; omega)).trans ?hq
      exact stripL_swapQ_perm l i (l.length-1) hi (by omega)
    rw [hlen, ← hdec]
    exact hperm

/-! ## `QItems.delete` -/

theorem delete_ok_iff (l : QItems) (index : Int) :
    (∃ l2, QItems.delete l index = .ok l2) ↔ index < (l.length : Int) := by
  unfold QItems.delete
  by_cases hc : index < (l.length : Int)
  · rw [if_pos hc]
    exact ⟨fun _ => hc, fun _ => ⟨_, rfl⟩⟩
  · rw [if_neg hc]
    constructor
    · rintro ⟨l2, he⟩
      cases he
    · intro hcon
      exact absurd hcon hc

theorem delete_ok_result (l : QItems) (index : Int)
    (hc : index < (l.length : Int)) :
    QItems.delete l index = .ok (heapRemove l index.toNat).2 := by
  unfold QItems.delete
  rw [if_pos hc]

theorem delete_err (l : QItems) (index : Int)
    (hc : ¬ index < (l.length : Int)) :
    QItems.delete l index = .error "Index out of range" := by
  unfold QItems.delete
  rw [if_neg hc]

/-! ## The heap/position invariant and its preservation -/

/-- Combined internal invariant: max-heap order plus position consistency. -/
def QueueInv (l : QItems) : Prop := isHeap l ∧ posConsistent l

theorem Inv_nil : QueueInv [] := by
  constructor
  · intro k hk
    simp at hk
  · intro k hk
    simp at hk

theorem Inv_heapPush (l : QItems) (x : QItem) (h : QueueInv l) : QueueInv (heapPush l x) :=
  ⟨isHeap_heapPush l x h.1, posConsistent_heapPush l x h.2⟩

theorem Inv_heapPop (l : QItems) (h : QueueInv l) (hne : 0 < l.length) :
    QueueInv (heapPop l).2 :=
  ⟨isHeap_heapPop l h.1 hne, posConsistent_heapPop l h.2 hne⟩

theorem Inv_heapRemove (l : QItems) (i : Nat) (h : QueueInv l) (hi : i < l.length) :
    QueueInv (heapRemove l i).2 :=
  ⟨isHeap_heapRemove l i h.1 hi, posConsistent_heapRemove l i h.2 hi⟩

theorem isHeap_fixQ_of_set (l : QItems) (t : Nat) (x : QItem) (h : isHeap l)
    (ht : t < l.length) : isHeap (fixQ (l.set t x) t) := by
  unfold isHeap
  rw [length_fixQ, List.length_set]
  unfold fixQ
  rw [List.length_set]
  have hpr : ∀ k, k ≠ t → prio (l.set t x) k = prio l k := by
    intro k hk
    unfold prio
    rw [getD_set_ne l t k _ (fun he => hk he.symm)]
  refine fixB_heap _ t l.length (by rw [List.length_set]) ht ?F1 ?F2
  · intro k hk hk0 hki hpk
    rw [hpr k hki, hpr ((k-1)/2) hpk]
    exact h k hk hk0
  · intro h0 k hk hpk
    have hki : k ≠ t := by omega
    have hpi : (t-1)/2 ≠ t := by omega
    rw [hpr k hki, hpr ((t-1)/2) hpi]
    have h1 := h k hk (by omega)
    rw [hpk] at h1
    have h2 := h t ht h0
    exact le_trans h1 h2

theorem posConsistent_set_at (l : QItems) (t : Nat) (x : QItem)
    (hx : x.index = (t : Int)) (h : posConsistent l) :
    posConsistent (l.set t x) := by
  intro k hk
  rw [List.length_set] at hk
  by_cases hkt : k = t
  · subst hkt
    rw [getD_set_self l k x hk]
    exact hx
  · rw [getD_set_ne l t k x (fun he => hkt he.symm)]
    exact h k hk

theorem updStep_inv (pid : String) (p : Int) (l : QItems) (t cnt : Nat)
    (h : QueueInv l) (ht : t < l.length) :
    QueueInv (updStep pid p l t cnt).1 ∧
      (updStep pid p l t cnt).1.length = l.length := by
  simp only [updStep]
  by_cases hm : (l.getD t dQ).parentID = pid
  · rw [if_pos hm]
    have hidx : (l.getD t dQ).index = (t : Int) := h.2 t ht
    rw [hidx]
    simp only [Int.toNat_ofNat]
    have hset : (l.set t { l.getD t dQ with priority := p }).getD t dQ
        = { l.getD t dQ with priority := p } :=
      getD_set_self l t _ ht
    rw [hset]
    have hidx2 : ({ l.getD t dQ with priority := p } : QItem).index
        = (l.getD t dQ).index := rfl
    rw [hidx2, hidx]
    simp only [Int.toNat_ofNat]
    refine ⟨⟨isHeap_fixQ_of_set l t _ h.1 ht, ?PC⟩, ?LEN⟩
    · unfold fixQ
      refine posConsistent_fixB _ t _ (by rw [List.length_set])
        (by rw [List.length_set]; exact ht) ?hq
      refine posConsistent_set_at l t _ ?hx h.2
      rfl
    · rw [length_fixQ, List.length_set]
  · rw [if_neg hm]
    exact ⟨h, rfl⟩

theorem updLoop_inv (pid : String) (p : Int) (r t : Nat) (l : QItems)
    (cnt : Nat) (h : QueueInv l) (hr : t + r ≤ l.length) :
    QueueInv (updLoop pid p r t l cnt).1 ∧
      (updLoop pid p r t l cnt).1.length = l.length := by
  induction r generalizing t l cnt with
  | zero => exact ⟨h, rfl⟩
  | succ rr ih =>
    unfold updLoop
    have hs := updStep_inv pid p l t cnt h (by omega)
    have := ih (t+1) (updStep pid p l t cnt).1 (updStep pid p l t cnt).2
      hs.1 (by omega)
    exact ⟨this.1, by rw [this.2, hs.2]⟩

theorem delete_inv (l : QItems) (idx : Int) (l2 : QItems) (h : QueueInv l)
    (h0 : 0 ≤ idx) (he : QItems.delete l idx = .ok l2) :
    QueueInv l2 ∧ l2.length = l.length - 1 := by
  unfold QItems.delete at he
  by_cases hc : idx < (l.length : Int)
  · rw [if_pos hc] at he
    have hl2 : l2 = (heapRemove l idx.toNat).2 := by
      cases he
      rfl
    subst hl2
    have hlt : idx.toNat < l.length := by omega
    exact ⟨Inv_heapRemove l idx.toNat h hlt,
      length_heapRemove_snd l idx.toNat⟩
  · rw [if_neg hc] at he
    cases he

theorem delLoop_inv (r j : Nat) (l : QItems) (cnt : Nat) (h : QueueInv l) :
    QueueInv (delLoop r j l cnt).1 := by
  induction r generalizing j l cnt with
  | zero => exact h
  | succ rr ih =>
    unfold delLoop
    cases hdel : QItems.delete l (Int.ofNat j) with
    | ok l1 =>
      exact ih (j+1) l1 (cnt+1)
        (delete_inv l (Int.ofNat j) l1 h (Int.ofNat_nonneg j) hdel).1
    | error e => exact h

theorem clearLoop_inv (f : Nat) (l : QItems) (h : QueueInv l) :
    QueueInv (clearLoop f l) := by
  induction f generalizing l with
  | zero => exact h
  | succ ff ih =>
    unfold clearLoop
    by_cases hne : 0 < l.length
    · rw [if_pos hne]
      exact ih (heapPop l).2 (Inv_heapPop l h hne)
    · rw [if_neg hne]
      exact h

/-! ## Invariant preservation through the façade -/

theorem QueueInv_Push (q : PriorityQueue) (x : QItem) (h : QueueInv q.data) :
    QueueInv (q.Push x).data :=
  Inv_heapPush q.data x h

theorem QueueInv_Pop (q : PriorityQueue) (h : QueueInv q.data) :
    QueueInv (q.Pop).2.2.data := by
  simp only [PriorityQueue.Pop]
  by_cases hne : 0 < q.data.length
  · rw [if_pos hne]
    exact Inv_heapPop q.data h hne
  · rw [if_neg hne]
    exact h

theorem QueueInv_Update (q : PriorityQueue) (pid : String) (p : Int)
    (h : QueueInv q.data) :
    QueueInv (q.UpdatePriorityByParentId pid p).1.data := by
  simp only [PriorityQueue.UpdatePriorityByParentId]
  exact (updLoop_inv pid p q.data.length 0 q.data 0 h (by omega)).1

theorem locate_ok_nonneg (q : PriorityQueue) (id : String) (idx : Int)
    (h : posConsistent q.data) (he : q.locateItemByID id = .ok idx) :
    0 ≤ idx := by
  simp only [PriorityQueue.locateItemByID] at he
  cases hf : q.data.find? (fun e => decide (e.id = id)) with
  | none =>
    rw [hf] at he
    simp at he
  | some e =>
    rw [hf] at he
    by_cases hm : e.index = -1
    · rw [if_pos hm] at he
      cases he
    · rw [if_neg hm] at he
      have hidx : idx = e.index := by
        cases he
        rfl
      have hmem : e ∈ q.data := List.mem_of_find?_eq_some hf
      obtain ⟨k, hk, hek⟩ := List.mem_iff_getElem.mp hmem
      have : (q.data.getD k dQ).index = (k : Int) := h k hk
      rw [List.getD_eq_getElem q.data dQ hk, hek] at this
      rw [hidx, this]
      omega

theorem QueueInv_DeleteItemById (q : PriorityQueue) (id : String)
    (h : QueueInv q.data) : QueueInv (q.DeleteItemById id).1.data := by
  cases hloc : q.locateItemByID id with
  | error e =>
    simp only [PriorityQueue.DeleteItemById, hloc]
    exact h
  | ok idx =>
    cases hdel : QItems.delete q.data idx with
    | error e =>
      simp only [PriorityQueue.DeleteItemById, hloc, hdel]
      exact h
    | ok l1 =>
      simp only [PriorityQueue.DeleteItemById, hloc, hdel]
      exact (delete_inv q.data idx l1 h
        (locate_ok_nonneg q id idx h.2 hloc) hdel).1

theorem QueueInv_DeleteItemsByParentId (q : PriorityQueue) (pid : String)
    (h : QueueInv q.data) : QueueInv (q.DeleteItemsByParentId pid).1.data := by
  simp only [PriorityQueue.DeleteItemsByParentId]
  exact delLoop_inv _ 0 q.data 0 h

theorem QueueInv_Clear (q : PriorityQueue) (h : QueueInv q.data) :
    QueueInv q.Clear.data := by
  simp only [PriorityQueue.Clear]
  exact clearLoop_inv q.data.length q.data h

theorem QueueInv_reachable (q : PriorityQueue) (h : Reachable q) :
    QueueInv q.data := by
  induction h with
  | new => exact Inv_nil
  | push q x _ ih => exact QueueInv_Push q x ih
  | pop q _ ih => exact QueueInv_Pop q ih
  | update q pid p _ ih => exact QueueInv_Update q pid p ih
  | deleteById q id _ ih => exact QueueInv_DeleteItemById q id ih
  | deleteByParentId q pid _ ih => exact QueueInv_DeleteItemsByParentId q pid ih
  | clear q _ ih => exact QueueInv_Clear q ih
  | destroy q _ _ => exact Inv_nil

/-! ## Root maximality and `Pop` characterization -/

theorem prio_le_root (l : QItems) (h : isHeap l) :
    ∀ i, i < l.length → prio l i ≤ prio l 0 := by
  intro i
  induction i using Nat.strong_induction_on with
  | _ i ih =>
    intro hi
    by_cases h0 : i = 0
    · rw [h0]
    · have h1 := h i hi (Nat.pos_of_ne_zero h0)
      have h2 := ih ((i-1)/2) (parent_lt (Nat.pos_of_ne_zero h0)) (by omega)
      exact le_trans h1 h2

theorem Pop_pos (q : PriorityQueue) (hne : 0 < q.data.length) :
    q.Pop = (some { q.data.getD 0 dQ with index := -1 }, none,
      ⟨(heapPop q.data).2⟩) := by
  simp only [PriorityQueue.Pop, if_pos hne]
  rw [heapPop_fst q.data hne]

theorem Pop_neg (q : PriorityQueue) (hz : ¬ 0 < q.data.length) :
    q.Pop = (none, some "queue is empty, nothing to Pop", q) := by
  simp only [PriorityQueue.Pop, if_neg hz]

/-! ## Drain -/

theorem drainLoop_mem (fuel : Nat) (q : PriorityQueue) (x : QItem)
    (hx : x ∈ drainLoop fuel q) : strip x ∈ stripL q.data := by
  induction fuel generalizing q with
  | zero => cases hx
  | succ f ih =>
    unfold drainLoop at hx
    by_cases hne : 0 < q.data.length
    · rw [Pop_pos q hne] at hx
      have hroot : q.data.getD 0 dQ ∈ q.data := by
        rw [List.getD_eq_getElem q.data dQ hne]
        exact List.getElem_mem hne
      rcases List.mem_cons.mp hx with hxe | hxr
      · subst hxe
        show strip (q.data.getD 0 dQ) ∈ stripL q.data
        exact strip_mem_of_mem q.data _ hroot
      · have hmem := ih ⟨(heapPop q.data).2⟩ hxr
        exact (heapPop_stripL_perm q.data hne).mem_iff.mp
          (List.mem_cons_of_mem _ hmem)
    · rw [Pop_neg q hne] at hx
      cases hx

theorem drainItems_mem (q : PriorityQueue) (x : QItem)
    (hx : x ∈ drainItems q) : strip x ∈ stripL q.data :=
  drainLoop_mem q.Len q x hx

/-! ## `find?` and `locateItemByID` -/

theorem find?_position (l : QItems) (pred : QItem → Bool) (e : QItem)
    (h : l.find? pred = some e) :
    ∃ k, k < l.length ∧ l.getD k dQ = e ∧ pred e = true ∧
      ∀ j, j < k → ¬ (pred (l.getD j dQ) = true) := by
  induction l with
  | nil => cases h
  | cons a t ih =>
    cases hp : pred a with
    | true =>
      simp only [List.find?_cons, hp] at h
      injection h with he
      subst he
      exact ⟨0, by simp, by simp, hp, by omega⟩
    | false =>
      simp only [List.find?_cons, hp] at h
      obtain ⟨k, hk, hek, hpe, hfirst⟩ := ih h
      refine ⟨k+1, by simpa using hk, by simpa using hek, hpe, ?hf⟩
      intro j hj
      cases j with
      | zero => simp [hp]
      | succ m => simpa using hfirst m (by omega)

theorem locate_found (q : PriorityQueue) (id : String) (e : QItem)
    (h : posConsistent q.data)
    (hf : q.data.find? (fun x => decide (x.id = id)) = some e) :
    ∃ k : Nat, q.locateItemByID id = .ok (k : Int) ∧ k < q.data.length ∧
      q.data.getD k dQ = e ∧ e.id = id ∧
      ∀ j, j < k → (q.data.getD j dQ).id ≠ id := by
  obtain ⟨k, hk, hek, hpe, hfirst⟩ := find?_position q.data _ e hf
  have hidx : e.index = (k : Int) := by
    have := h k hk
    rw [hek] at this
    exact this
  refine ⟨k, ?hl, hk, hek, by simpa using hpe, ?hj⟩
  · simp only [PriorityQueue.locateItemByID, hf]
    rw [hidx, if_neg (by omega)]
  · intro j hj hcon
    exact hfirst j hj (by simpa using hcon)

theorem locate_notfound (q : PriorityQueue) (id : String)
    (hf : q.data.find? (fun x => decide (x.id = id)) = none) :
    q.locateItemByID id = .error ("ID Not found: [" ++ id ++ "]") := by
  simp [PriorityQueue.locateItemByID, hf]

/-! ## `DeleteItemById` specification -/

theorem DeleteItemById_found (q : PriorityQueue) (id : String) (e : QItem)
    (hq : QueueInv q.data)
    (hf : q.data.find? (fun x => decide (x.id = id)) = some e) :
    (q.DeleteItemById id).2 = none ∧
    (q.DeleteItemById id).1.data.length = q.data.length - 1 ∧
    (stripL (q.DeleteItemById id).1.data ++ [strip e]).Perm (stripL q.data) := by
  obtain ⟨k, hloc, hk, hek, hid, hfirst⟩ := locate_found q id e hq.2 hf
  have hdel : QItems.delete q.data ((k : Nat) : Int)
      = .ok (heapRemove q.data k).2 := by
    rw [delete_ok_result q.data _ (by omega)]
    simp only [Int.toNat_ofNat]
  simp only [PriorityQueue.DeleteItemById, hloc, hdel]
  refine ⟨trivial, length_heapRemove_snd q.data k, ?hp⟩
  have := stripL_heapRemove_perm q.data k hk
  rw [hek] at this
  exact this

theorem DeleteItemById_notfound (q : PriorityQueue) (id : String)
    (hf : q.data.find? (fun x => decide (x.id = id)) = none) :
    q.DeleteItemById id = (q, some ("ID Not found: [" ++ id ++ "]")) := by
  simp only [PriorityQueue.DeleteItemById, locate_notfound q id hf]

/-! ## Concrete scenario builders -/

/-- Fold a list of entries into a queue through the public `Push`. -/
def qOfList (xs : List QItem) : PriorityQueue :=
  xs.foldl PriorityQueue.Push NewPriorityQueue

theorem reachable_pushes (xs : List QItem) (q : PriorityQueue)
    (h : Reachable q) : Reachable (xs.foldl PriorityQueue.Push q) := by
  induction xs generalizing q with
  | nil => exact h
  | cons x t ih => exact ih (q.Push x) (Reachable.push q x h)

theorem reachable_qOfList (xs : List QItem) : Reachable (qOfList xs) :=
  reachable_pushes xs NewPriorityQueue Reachable.new

/-! ## Helpers for the update-scan analysis -/

theorem getD_congr_of_drop_eq (l m : QItems) (t : Nat)
    (h : l.drop t = m.drop t) : l.getD t dQ = m.getD t dQ := by
  have h0 : (l.drop t)[0]? = (m.drop t)[0]? := by rw [h]
  rw [List.getElem?_drop, List.getElem?_drop] at h0
  rw [List.getD_eq_getElem?_getD, List.getD_eq_getElem?_getD]
  simpa using congrArg (fun o => Option.getD o dQ) h0

theorem drop_set_of_lt (l : QItems) (i : Nat) (a : QItem) (m : Nat)
    (h : i < m) : (l.set i a).drop m = l.drop m := by
  apply List.ext_getElem?
  intro k
  rw [List.getElem?_drop, List.getElem?_drop, List.getElem?_set_ne (by omega)]

theorem take_set_of_le (l : QItems) (i : Nat) (a : QItem) (m : Nat)
    (h : m ≤ i) : (l.set i a).take m = l.take m := by
  apply List.ext_getElem?
  intro k
  rw [List.getElem?_take, List.getElem?_take]
  by_cases hk : k < m
  · rw [if_pos hk, if_pos hk, List.getElem?_set_ne (by omega)]
  · rw [if_neg hk, if_neg hk]

theorem stripL_append (a b : QItems) : stripL (a ++ b) = stripL a ++ stripL b := by
  simp [stripL]

theorem stripL_take_drop (l : QItems) (m : Nat) :
    stripL l = stripL (l.take m) ++ stripL (l.drop m) := by
  rw [← stripL_append, List.take_append_drop]

theorem take_succ_getD (l : QItems) (t : Nat) (ht : t < l.length) :
    l.take (t+1) = l.take t ++ [l.getD t dQ] := by
  rw [List.take_succ, List.getD_eq_getElem?_getD, List.getElem?_eq_getElem ht]
  rfl

theorem stripL_take_upA_perm (fuel : Nat) (l : QItems) (j m : Nat)
    (hm : j < m) (hj : j < l.length) :
    (stripL ((upA fuel l j).take m)).Perm (stripL (l.take m)) := by
  have hfull := stripL_upA_perm fuel l j hj
  have hdrop : (upA fuel l j).drop m = l.drop m := drop_upA fuel l j m hm
  rw [stripL_take_drop (upA fuel l j) m, stripL_take_drop l m, hdrop] at hfull
  exact (List.perm_append_right_iff _).mp hfull

theorem prio_le_of_mem_le (l : QItems) (p : Int)
    (h : ∀ x ∈ l, x.priority ≤ p) (k : Nat) (hk : k < l.length) :
    prio l k ≤ p := by
  refine h (l.getD k dQ) ?hm
  rw [List.getD_eq_getElem l dQ hk]
  exact List.getElem_mem hk

theorem fixQ_eq_up_of_max (l : QItems) (t : Nat)
    (hmax : ∀ k, k < l.length → prio l k ≤ prio l t) :
    fixQ l t = upHeap l t := by
  unfold fixQ fixB downHeap
  rw [downA_no_move l.length l t l.length (fun k hk _ _ => hmax k hk)]
  simp [lt_irrefl]

theorem mem_upHeap_bound (l : QItems) (j : Nat) (p : Int) (hj : j < l.length)
    (h : ∀ x ∈ l, x.priority ≤ p) :
    ∀ x ∈ upHeap l j, x.priority ≤ p := by
  intro x hx
  have hs : strip x ∈ stripL l := by
    refine (stripL_upA_perm (j+1) l j hj).mem_iff.mp ?hm
    exact strip_mem_of_mem _ x hx
  obtain ⟨y, hy, hsy⟩ := mem_of_strip_mem l (strip x) hs
  have : y.priority = x.priority := congrArg (fun s => s.2.2.2) hsy
  rw [← this]
  exact h y hy

theorem getD_mem_self (l : QItems) (t : Nat) (ht : t < l.length) :
    l.getD t dQ ∈ l := by
  rw [List.getD_eq_getElem l dQ ht]
  exact List.getElem_mem ht

theorem updStep_nomatch (pid : String) (p : Int) (l : QItems) (t cnt : Nat)
    (h : ¬ (l.getD t dQ).parentID = pid) : updStep pid p l t cnt = (l, cnt) := by
  simp only [updStep, if_neg h]

theorem updStep_match (pid : String) (p : Int) (l : QItems) (t cnt : Nat)
    (hcons : posConsistent l) (ht : t < l.length)
    (hm : (l.getD t dQ).parentID = pid) :
    updStep pid p l t cnt
      = (fixQ (l.set t { l.getD t dQ with priority := p }) t, cnt + 1) := by
  simp only [updStep, if_pos hm]
  have hidx : (l.getD t dQ).index = (t : Int) := hcons t ht
  rw [hidx]
  simp only [Int.toNat_ofNat]
  rw [getD_set_self l t _ ht]
  have hidx2 : ({ l.getD t dQ with priority := p } : QItem).index = (t : Int) :=
    hidx
  rw [hidx2]
  simp only [Int.toNat_ofNat]

theorem updLoop_nomatch (pid : String) (p : Int) (r t : Nat) (l : QItems)
    (cnt : Nat) (h : ∀ x ∈ l, ¬ x.parentID = pid) (hr : t + r ≤ l.length) :
    updLoop pid p r t l cnt = (l, cnt) := by
  induction r generalizing t cnt with
  | zero => rfl
  | succ rr ih =>
    unfold updLoop
    rw [updStep_nomatch pid p l t cnt (h (l.getD t dQ)
      (getD_mem_self l t (by omega)))]
    exact ih (t+1) cnt (by omega)

theorem updLoop_max (pid : String) (p : Int) (l0 : QItems) :
    ∀ (r t : Nat) (l : QItems) (cnt : Nat),
      t + r = l0.length →
      l.length = l0.length →
      posConsistent l →
      (∀ x ∈ l, x.priority ≤ p) →
      (∀ x ∈ l.take t, x.parentID = pid → x.priority = p) →
      l.drop t = l0.drop t →
      (∀ x ∈ (updLoop pid p r t l cnt).1, x.parentID = pid → x.priority = p) ∧
      (updLoop pid p r t l cnt).2
        = cnt + ((l0.drop t).filter (fun e => decide (e.parentID = pid))).length := by
  intro r
  induction r with
  | zero =>
    intro t l cnt ht hlen hcons hbound htake hdrop
    constructor
    · intro x hx
      have hx2 : x ∈ l := hx
      have hxt : x ∈ l.take t := by
        have he : t = l.length := by omega
        rw [he, List.take_length]
        exact hx2
      exact htake x hxt
    · have hd : l0.drop t = [] := List.drop_eq_nil_of_le (by omega)
      rw [hd]
      rfl
  | succ rr ih =>
    intro t l cnt ht hlen hcons hbound htake hdrop
    have htl : t < l.length := by omega
    have htl0 : t < l0.length := by omega
    have hocc : l.getD t dQ = l0.getD t dQ := getD_congr_of_drop_eq l l0 t hdrop
    have hdrop_cons : l0.drop t = l0.getD t dQ :: l0.drop (t+1) := by
      rw [List.drop_eq_getElem_cons htl0, List.getD_eq_getElem l0 dQ htl0]
    have hdrop1 : l.drop (t+1) = l0.drop (t+1) := by
      have hcg := congrArg (List.drop 1) hdrop
      rw [List.drop_drop, List.drop_drop] at hcg
      exact hcg
    unfold updLoop
    by_cases hm : (l.getD t dQ).parentID = pid
    · rw [updStep_match pid p l t cnt hcons htl hm]
      have hl1len : (l.set t { l.getD t dQ with priority := p }).length
          = l.length := List.length_set l _ _
      have hprio_t : prio (l.set t { l.getD t dQ with priority := p }) t = p := by
        unfold prio
        rw [getD_set_self l t _ htl]
      have hb1 : ∀ x ∈ l.set t { l.getD t dQ with priority := p },
          x.priority ≤ p := by
        intro x hx
        rcases List.mem_or_eq_of_mem_set hx with hxl | hxe
        · exact hbound x hxl
        · rw [hxe]
      have hfix : fixQ (l.set t { l.getD t dQ with priority := p }) t
          = upHeap (l.set t { l.getD t dQ with priority := p }) t := by
        refine fixQ_eq_up_of_max _ t ?hmx
        intro k hk
        rw [hprio_t]
        exact prio_le_of_mem_le _ p hb1 k hk
      rw [hfix]
      have hup : upHeap (l.set t { l.getD t dQ with priority := p }) t
          = upA (t+1) (l.set t { l.getD t dQ with priority := p }) t := rfl
      have IH := ih (t+1)
        (upHeap (l.set t { l.getD t dQ with priority := p }) t) (cnt+1)
        (by omega)
        (by rw [hup, length_upA, hl1len, hlen])
        (by
          rw [hup]
          refine posConsistent_upA (t+1) _ t (by rw [hl1len]; exact htl) ?hpc
          refine posConsistent_set_at l t _ ?hix hcons
          exact hcons t htl)
        (by
          refine mem_upHeap_bound _ t p (by rw [hl1len]; exact htl) hb1)
        (by
          intro x hx
          have hs : strip x ∈ stripL ((upHeap
              (l.set t { l.getD t dQ with priority := p }) t).take (t+1)) :=
            strip_mem_of_mem _ x hx
          rw [hup] at hs
          have hperm := stripL_take_upA_perm (t+1)
            (l.set t { l.getD t dQ with priority := p }) t (t+1)
            (Nat.lt_succ_self t) (by rw [hl1len]; exact htl)
          have hs2 := hperm.mem_iff.mp hs
          obtain ⟨y, hy, hsy⟩ := mem_of_strip_mem _ (strip x) hs2
          have hpe : y.parentID = x.parentID := congrArg (fun s => s.2.1) hsy
          have hpr : y.priority = x.priority :=
            congrArg (fun s => s.2.2.2) hsy
          intro hxp
          rw [← hpr]
          have hy2 : y ∈ (l.set t { l.getD t dQ with priority := p }).take t
              ++ [(l.set t { l.getD t dQ with priority := p }).getD t dQ] := by
            rw [← take_succ_getD _ t (by rw [hl1len]; exact htl)]
            exact hy
          rw [take_set_of_le l t _ t (le_refl t), getD_set_self l t _ htl]
            at hy2
          rcases List.mem_append.mp hy2 with hyl | hyr
          · exact htake y hyl (by rw [hpe, hxp])
          · have : y = { l.getD t dQ with priority := p } :=
              List.mem_singleton.mp hyr
            rw [this])
        (by
          rw [hup, drop_upA (t+1) _ t (t+1) (Nat.lt_succ_self t),
            drop_set_of_lt l t _ (t+1) (Nat.lt_succ_self t)]
          exact hdrop1)
      constructor
      · exact IH.1
      · rw [IH.2, hdrop_cons, List.filter_cons,
          if_pos (by rw [← hocc]; exact decide_eq_true hm)]
        simp only [List.length_cons]
        omega
    · rw [updStep_nomatch pid p l t cnt hm]
      have IH := ih (t+1) l cnt (by omega) hlen hcons hbound
        (by
          intro x hx
          rw [take_succ_getD l t htl] at hx
          rcases List.mem_append.mp hx with hxl | hxr
          · exact htake x hxl
          · have hxe : x = l.getD t dQ := List.mem_singleton.mp hxr
            intro hxp
            rw [hxe] at hxp
            exact absurd hxp hm)
        hdrop1
      constructor
      · exact IH.1
      · rw [IH.2, hdrop_cons, List.filter_cons,
          if_neg (by rw [← hocc]; simpa using hm)]

theorem Update_nomatch (q : PriorityQueue) (pid : String) (p : Int)
    (h : q.data.filter (fun e => decide (e.parentID = pid)) = []) :
    q.UpdatePriorityByParentId pid p = (q, 0) := by
  have h2 : ∀ x ∈ q.data, ¬ x.parentID = pid := by
    intro x hx
    have h3 := List.filter_eq_nil_iff.mp h x hx
    simpa using h3
  simp only [PriorityQueue.UpdatePriorityByParentId]
  rw [updLoop_nomatch pid p q.data.length 0 q.data 0 h2 (by omega)]

theorem Update_max (q : PriorityQueue) (pid : String) (p : Int)
    (hc : posConsistent q.data) (hb : ∀ x ∈ q.data, x.priority ≤ p) :
    (∀ x ∈ (q.UpdatePriorityByParentId pid p).1.data,
      x.parentID = pid → x.priority = p) ∧
    (q.UpdatePriorityByParentId pid p).2
      = (q.data.filter (fun e => decide (e.parentID = pid))).length := by
  have H := updLoop_max pid p q.data q.data.length 0 q.data 0 (by omega) rfl
    hc hb (by simp) rfl
  simp only [PriorityQueue.UpdatePriorityByParentId]
  constructor
  · exact H.1
  · rw [H.2]
    simp

/-! ## Concrete scenarios referenced by the claims -/

/-- Three entries: one in group `"X"` at the root, two in group `"G"`. -/
def bugGroupQ : PriorityQueue :=
  qOfList [⟨"a", "X", 1, 10, 0⟩, ⟨"b", "G", 2, 5, 0⟩, ⟨"c", "G", 3, 1, 0⟩]

/-- Two entries, both in group `"G"`. -/
def bugPairQ : PriorityQueue :=
  qOfList [⟨"a", "G", 1, 5, 0⟩, ⟨"b", "G", 2, 3, 0⟩]

/-- Three entries, all in group `"G"`, priorities `10, 5, 1`. -/
def updSkipQ : PriorityQueue :=
  qOfList [⟨"a", "G", 1, 10, 0⟩, ⟨"b", "G", 2, 5, 0⟩, ⟨"c", "G", 3, 1, 0⟩]

/-- Ten entries sharing `GroupKey = "G"` with priorities `1..10`. -/
def groupTenQ : PriorityQueue :=
  qOfList [⟨"a", "G", 1, 1, 0⟩, ⟨"b", "G", 2, 2, 0⟩, ⟨"c", "G", 3, 3, 0⟩,
    ⟨"d", "G", 4, 4, 0⟩, ⟨"e", "G", 5, 5, 0⟩, ⟨"f", "G", 6, 6, 0⟩,
    ⟨"g", "G", 7, 7, 0⟩, ⟨"h", "G", 8, 8, 0⟩, ⟨"i", "G", 9, 9, 0⟩,
    ⟨"j", "G", 10, 10, 0⟩]

/-- Two entries with distinct primary keys. -/
def delIdQ : PriorityQueue :=
  qOfList [⟨"a", "X", 1, 5, 0⟩, ⟨"b", "Y", 2, 3, 0⟩]

/-! ## Claims -/

/-- C1: the claim states that `DeleteItemsByParentId` removes exactly the
entries whose `GroupKey` equals the given key (in particular with ≥ 2
matches) and that draining afterwards never yields the deleted group key.
The code instead iterates `for index := range indexesToDelete`, so it
deletes positions `0..k-1` rather than the collected positions: on the
store `[a/X/10, b/G/5, c/G/1]` it reports 2 deletions with no error, yet
the remaining (and drained) store still holds the group-`"G"` entry `b`
while the group-`"X"` entry `a` was deleted. -/
theorem c1_group_delete_wrong_entries :
    (bugGroupQ.DeleteItemsByParentId "G").2.1 = 2 ∧
    (bugGroupQ.DeleteItemsByParentId "G").2.2 = none ∧
    stripL (bugGroupQ.DeleteItemsByParentId "G").1.data = [("b", "G", 2, 5)] ∧
    ¬ (∀ x ∈ (bugGroupQ.DeleteItemsByParentId "G").1.data,
        x.parentID ≠ "G") ∧
    ¬ (∀ x ∈ drainItems (bugGroupQ.DeleteItemsByParentId "G").1,
        x.parentID ≠ "G") ∧
    (∀ x ∈ bugGroupQ.data, x.parentID = "X" → x.id = "a") ∧
    ¬ (∃ x ∈ (bugGroupQ.DeleteItemsByParentId "G").1.data,
        x.parentID = "X") := by
  decide

/-- C3: the claim states that an erroring public operation leaves the
backing store exactly as it was (no partial-success state), in particular
for `DeleteItemsByParentId` with a mid-sequence removal failure. On the
two-entry store `[a/G/5, b/G/3]`, deleting group `"G"` deletes one entry,
then fails with an error: the call returns count 1 together with an error,
and the store is neither the original two-entry store nor the fully
transformed (empty) one. -/
theorem c3_partial_delete_state :
    (bugPairQ.DeleteItemsByParentId "G").2.2.isSome = true ∧
    (bugPairQ.DeleteItemsByParentId "G").2.1 = 1 ∧
    bugPairQ.data.length = 2 ∧
    (bugPairQ.DeleteItemsByParentId "G").1.data ≠ bugPairQ.data ∧
    (bugPairQ.DeleteItemsByParentId "G").1.data ≠ [] := by
  decide

/-- C4: the claim states that the `"Index out of range"` error
(`PositionOutOfRange`) of the low-level `delete` is unreachable through
the public façade. Calling the public `DeleteItemsByParentId "G"` on the
two-entry store `[a/G/5, b/G/3]` surfaces exactly that error to the
caller. -/
theorem c4_position_out_of_range_reachable :
    (bugPairQ.DeleteItemsByParentId "G").2.2 = some "Index out of range" := by
  decide

/-- C6: starting from a fresh queue, after any sequence of public
operations, every non-root position is bounded by its parent (the
max-heap property). -/
theorem c6_heap_invariant (q : PriorityQueue) (hq : Reachable q) :
    isHeap q.data :=
  (QueueInv_reachable q hq).1

/-- C6 witness. -/
theorem c6_heap_invariant_witness :
    isHeap ((NewPriorityQueue.Push ⟨"a", "G", 1, 5, 0⟩).Push
      ⟨"b", "G", 2, 7, 0⟩).data :=
  c6_heap_invariant _ (Reachable.push _ _ (Reachable.push _ _ Reachable.new))

/-- C7: for every reachable state, every stored entry's `index` field
equals its true array position, and a removed (popped) entry carries the
`-1` sentinel. -/
theorem c7_position_consistency (q : PriorityQueue) (hq : Reachable q) :
    posConsistent q.data ∧
    (∀ x e q1, q.Pop = (some x, e, q1) → x.index = -1) := by
  refine ⟨(QueueInv_reachable q hq).2, ?hp⟩
  intro x e q1 hpop
  by_cases hne : 0 < q.data.length
  · rw [Pop_pos q hne] at hpop
    have h1 : some ({ q.data.getD 0 dQ with index := -1 } : QItem) = some x :=
      congrArg (fun r => r.1) hpop
    injection h1 with h2
    rw [← h2]
  · rw [Pop_neg q hne] at hpop
    have h1 : (none : Option QItem) = some x := congrArg (fun r => r.1) hpop
    exact Option.noConfusion h1

/-- C7 witness. -/
theorem c7_position_consistency_witness :
    posConsistent ((NewPriorityQueue.Push ⟨"a", "G", 1, 5, 0⟩).Push
      ⟨"b", "G", 2, 7, 0⟩).data ∧
    (∀ x e q1, ((NewPriorityQueue.Push ⟨"a", "G", 1, 5, 0⟩).Push
      ⟨"b", "G", 2, 7, 0⟩).Pop = (some x, e, q1) → x.index = -1) :=
  c7_position_consistency _
    (Reachable.push _ _ (Reachable.push _ _ Reachable.new))

/-- C9: popping an empty queue returns the `EmptyQueue` error and leaves
the queue unchanged with length 0. -/
theorem c9_pop_on_empty (q : PriorityQueue) (h : q.Len = 0) :
    q.Pop = (none, some "queue is empty, nothing to Pop", q) ∧
    (q.Pop).2.2.Len = 0 := by
  have hz : ¬ 0 < q.data.length := by
    unfold PriorityQueue.Len at h
    omega
  refine ⟨Pop_neg q hz, ?hl⟩
  rw [Pop_neg q hz]
  exact h

/-- C9 witness. -/
theorem c9_pop_on_empty_witness :
    NewPriorityQueue.Len = 0 ∧
    (NewPriorityQueue.Pop
        = (none, some "queue is empty, nothing to Pop", NewPriorityQueue) ∧
      (NewPriorityQueue.Pop).2.2.Len = 0) :=
  ⟨rfl, c9_pop_on_empty NewPriorityQueue rfl⟩

/-- C10: the entry value returned by `Pop` alongside the empty-queue error
is the `nil` pointer (modelled as `none`). -/
theorem c10_pop_empty_nil_entry (q : PriorityQueue) (h : q.Len = 0) :
    (q.Pop).1 = none ∧
    (q.Pop).2.1 = some "queue is empty, nothing to Pop" := by
  have hz : ¬ 0 < q.data.length := by
    unfold PriorityQueue.Len at h
    omega
  rw [Pop_neg q hz]
  exact ⟨rfl, rfl⟩

/-- C10 witness. -/
theorem c10_pop_empty_nil_entry_witness :
    NewPriorityQueue.Len = 0 ∧
    ((NewPriorityQueue.Pop).1 = none ∧
      (NewPriorityQueue.Pop).2.1 = some "queue is empty, nothing to Pop") :=
  ⟨rfl, c10_pop_empty_nil_entry NewPriorityQueue rfl⟩

/-- C5: on every reachable non-empty queue, `Pop` returns an entry of
maximum priority and removes exactly one occurrence of it; consequently a
queue populated with priorities `1..10` drains in the strictly descending
order `10,9,…,1`. -/
theorem c5_pop_max (q : PriorityQueue) (hq : Reachable q)
    (hne : q.data ≠ []) :
    (∃ x q1, q.Pop = (some x, none, q1) ∧
      (∀ i, i < q.data.length → prio q.data i ≤ x.priority) ∧
      (strip x :: stripL q1.data).Perm (stripL q.data)) ∧
    (drainItems groupTenQ).map (fun x => x.priority)
      = [10, 9, 8, 7, 6, 5, 4, 3, 2, 1] := by
  constructor
  · have hpos : 0 < q.data.length := List.length_pos.mpr hne
    refine ⟨{ q.data.getD 0 dQ with index := -1 }, ⟨(heapPop q.data).2⟩,
      Pop_pos q hpos, ?hmax, ?hperm⟩
    · intro i hi
      exact prio_le_root q.data (QueueInv_reachable q hq).1 i hi
    · exact heapPop_stripL_perm q.data hpos
  · decide

/-- C5 witness. -/
theorem c5_pop_max_witness :
    groupTenQ.data ≠ [] ∧
    ((∃ x q1, groupTenQ.Pop = (some x, none, q1) ∧
      (∀ i, i < groupTenQ.data.length → prio groupTenQ.data i ≤ x.priority) ∧
      (strip x :: stripL q1.data).Perm (stripL groupTenQ.data)) ∧
    (drainItems groupTenQ).map (fun x => x.priority)
      = [10, 9, 8, 7, 6, 5, 4, 3, 2, 1]) :=
  ⟨by decide, c5_pop_max groupTenQ (reachable_qOfList _) (by decide)⟩

/-- C8: on every reachable queue, when some entry matches the given
primary key, `DeleteItemById` succeeds, removes exactly one entry — the
first match in backing-store order (`find?` returns the first match) —
decreasing `Len` by exactly 1; when the removed entry's caller-visible
content occurs only once, a subsequent full drain never yields it. With
no matching entry it fails with the not-found error and changes nothing. -/
theorem c8_delete_by_key (q : PriorityQueue) (id : String) (hq : Reachable q) :
    (∀ e, q.data.find? (fun x => decide (x.id = id)) = some e →
      (q.DeleteItemById id).2 = none ∧
      (q.DeleteItemById id).1.Len = q.Len - 1 ∧
      (stripL (q.DeleteItemById id).1.data ++ [strip e]).Perm
        (stripL q.data) ∧
      ((stripL q.data).countP (fun s => decide (s = strip e)) = 1 →
        ∀ x ∈ drainItems (q.DeleteItemById id).1, strip x ≠ strip e)) ∧
    (q.data.find? (fun x => decide (x.id = id)) = none →
      q.DeleteItemById id = (q, some ("ID Not found: [" ++ id ++ "]"))) := by
  have hInv := QueueInv_reachable q hq
  constructor
  · intro e hf
    obtain ⟨h1, h2, h3⟩ := DeleteItemById_found q id e hInv hf
    refine ⟨h1, h2, h3, ?hcnt⟩
    intro hcount x hx hcon
    have hc2 := h3.countP_eq (fun s => decide (s = strip e))
    rw [List.countP_append, hcount] at hc2
    have hone : List.countP (fun s => decide (s = strip e)) [strip e] = 1 := by
      simp
    have hzero : (stripL (q.DeleteItemById id).1.data).countP
        (fun s => decide (s = strip e)) = 0 := by
      omega
    have hmem := drainItems_mem _ x hx
    rw [hcon] at hmem
    have hnot := List.countP_eq_zero.mp hzero (strip e) hmem
    simp at hnot
  · exact DeleteItemById_notfound q id

/-- C8 witness. -/
theorem c8_delete_by_key_witness :
    (∀ e, delIdQ.data.find? (fun x => decide (x.id = "a")) = some e →
      (delIdQ.DeleteItemById "a").2 = none ∧
      (delIdQ.DeleteItemById "a").1.Len = delIdQ.Len - 1 ∧
      (stripL (delIdQ.DeleteItemById "a").1.data ++ [strip e]).Perm
        (stripL delIdQ.data) ∧
      ((stripL delIdQ.data).countP (fun s => decide (s = strip e)) = 1 →
        ∀ x ∈ drainItems (delIdQ.DeleteItemById "a").1,
          strip x ≠ strip e)) ∧
    (delIdQ.data.find? (fun x => decide (x.id = "a")) = none →
      delIdQ.DeleteItemById "a"
        = (delIdQ, some ("ID Not found: [" ++ "a" ++ "]"))) :=
  c8_delete_by_key delIdQ "a" (reachable_qOfList _)

/-- C2 counterexample: on the all-`"G"` store `[a/10, b/5, c/1]`,
`UpdatePriorityByParentId "G" 3` reports 3 updates but leaves entry `b`
at priority 5 — a matching entry whose priority was never set, because a
mid-scan `Fix` moved it to an already-visited position (and updated `a`
twice instead). -/
theorem c2_update_skips_entry :
    (updSkipQ.UpdatePriorityByParentId "G" 3).2 = 3 ∧
    stripL (updSkipQ.UpdatePriorityByParentId "G" 3).1.data
      = [("b", "G", 2, 5), ("a", "G", 1, 3), ("c", "G", 3, 3)] ∧
    ¬ (∀ x ∈ (updSkipQ.UpdatePriorityByParentId "G" 3).1.data,
        x.parentID = "G" → x.priority = 3) := by
  decide

/-- C2 (amended): when no entries match, `UpdatePriorityByParentId`
returns 0 without error and leaves the queue unchanged; when the new
priority is at least every stored priority, every entry of the group ends
with the new priority and the returned count equals the number of
matching entries; in particular the 10-entry one-group scenario updated
to 500 drains with priority 500 on every entry. (In general a matching
entry can be skipped when a mid-scan `Fix` reorders the store — see the
counterexample.) -/
theorem c2_update_amended (q : PriorityQueue) (pid : String) (p : Int)
    (hq : Reachable q) :
    (q.data.filter (fun e => decide (e.parentID = pid)) = [] →
      q.UpdatePriorityByParentId pid p = (q, 0)) ∧
    ((∀ x ∈ q.data, x.priority ≤ p) →
      (∀ x ∈ (q.UpdatePriorityByParentId pid p).1.data,
          x.parentID = pid → x.priority = p) ∧
      (q.UpdatePriorityByParentId pid p).2
        = (q.data.filter (fun e => decide (e.parentID = pid))).length) ∧
    (drainItems (groupTenQ.UpdatePriorityByParentId "G" 500).1).map
        (fun x => x.priority)
      = [500, 500, 500, 500, 500, 500, 500, 500, 500, 500] := by
  refine ⟨fun h => Update_nomatch q pid p h,
    fun hb => Update_max q pid p (QueueInv_reachable q hq).2 hb, ?hc⟩
  decide

/-- C2 witness. -/
theorem c2_update_amended_witness :
    (groupTenQ.data.filter (fun e => decide (e.parentID = "G")) = [] →
      groupTenQ.UpdatePriorityByParentId "G" 500 = (groupTenQ, 0)) ∧
    ((∀ x ∈ groupTenQ.data, x.priority ≤ 500) →
      (∀ x ∈ (groupTenQ.UpdatePriorityByParentId "G" 500).1.data,
          x.parentID = "G" → x.priority = 500) ∧
      (groupTenQ.UpdatePriorityByParentId "G" 500).2
        = (groupTenQ.data.filter
            (fun e => decide (e.parentID = "G"))).length) ∧
    (drainItems (groupTenQ.UpdatePriorityByParentId "G" 500).1).map
        (fun x => x.priority)
      = [500, 500, 500, 500, 500, 500, 500, 500, 500, 500] :=
  c2_update_amended groupTenQ "G" 500 (reachable_qOfList _)
